import Mathlib

/-!
Verification of the review-synthesis pipeline (`synthetic_reviews.py`).

The Python source is shallowly embedded: the global Mersenne-Twister state is
modelled as an infinite stream `ρ : ℕ → ℕ` of raw draws together with an
explicitly threaded position index; each call to a `random.*` primitive
consumes one position.  `random.randint(0, k)` is modelled as `ρ i % (k+1)`
(every in-range draw sequence is representable).  Visit dates are represented
by their day offset from `DATE_START` (2023-01-01); `strftime("%Y-%m-%d")` is
a strictly monotone injection on the modelled range, so ordering, distinctness
and day-distance claims are stated on offsets.  Python floats are modelled as
rationals: `random.random()` in thousandths, ratings in tenths (the claims
depend only on range and one-decimal precision, on which the models agree).
Unbounded `while` loops are modelled with explicit fuel; termination of the
source loop at a state is `∃ fuel` making the embedding return `some`.
-/

set_option maxRecDepth 20000
set_option maxHeartbeats 1000000

namespace SynthReviews

/-! ### Configuration constants (synthetic_reviews.py lines 42-79).
Values injected from the environment keep their defaults; cohort sizes and
review ranges are passed as parameters where claims quantify over them. -/

def CONCURRENT_PROMPTS : ℕ := 20

def CHUNK_SIZE : ℕ := 1000

def REVIEW_PHOTO_MIN : ℕ := 0

def REVIEW_PHOTO_MAX : ℕ := 3

def TARGET_SLOTS_PER_PROMPT : ℕ := 20

def MAX_SLOTS_PER_PROMPT : ℕ := 24

/-! ### Date range: DATE_START = 2023-01-01, DATE_END = 2025-07-31.
`total_days = (DATE_END - DATE_START).days + 1`, computed with calendar
arithmetic as Python's `datetime` subtraction does. -/

def leap_year (y : ℕ) : Bool :=
  (y % 4 == 0 && y % 100 != 0) || y % 400 == 0

def days_in_year (y : ℕ) : ℕ := if leap_year y then 366 else 365

def days_in_month (y m : ℕ) : ℕ :=
  if m = 2 then (if leap_year y then 29 else 28)
  else if m = 4 ∨ m = 6 ∨ m = 9 ∨ m = 11 then 30
  else 31

/-- 1-based ordinal of day `(m, d)` inside year `y`. -/
def day_of_year (y m d : ℕ) : ℕ :=
  (List.range (m - 1)).foldl (fun a k => a + days_in_month y (k + 1)) 0 + d

/-- Day offset of `(y, m, d)` from 2023-01-01 (offset 0). -/
def days_from_2023 (y m d : ℕ) : ℕ :=
  (List.range (y - 2023)).foldl (fun a k => a + days_in_year (2023 + k)) 0
    + day_of_year y m d - 1

/-- `(DATE_END - DATE_START).days + 1` (line 104 of the source). -/
def total_days : ℕ := days_from_2023 2025 7 31 + 1

/-! ### gen_user_dates (lines 95-132)

The three `while` loops become `phase1`, `phase2`, `phase3`.  Phases 1 and 2
are attempt-bounded in the source; they are written with a structural fuel
argument and invoked with fuel equal to the attempt budget, which makes the
embedding exact (each iteration increments `attempts`, and the loop stops as
soon as the budget is reached).  Phase 3 is a genuinely unbounded loop and
keeps its fuel as the termination witness.  Each function threads the draw
position `i` and returns it alongside its result.  The Python `set`
`used_days` is modelled as a duplicate-free `List ℕ`: in each phase the
insertion is guarded by a membership test (in phase 1, `has_near` subsumes
it), so the list never holds a duplicate and its length is the set's size. -/

/-- `any(abs(u - d) < 2 for u in used_days)` (line 112). -/
def has_near (used : List ℕ) (d : ℕ) : Prop :=
  ∃ u ∈ used, Nat.dist u d < 2

instance (used : List ℕ) (d : ℕ) : Decidable (has_near used d) := by
  unfold has_near; infer_instance

/-- First loop (lines 110-116): reject a draw near any chosen offset,
incrementing `attempts` on both accept and reject. -/
def phase1 (ρ : ℕ → ℕ) (n maxA : ℕ) : ℕ → ℕ → ℕ → List ℕ → List ℕ × ℕ × ℕ
  | 0, i, att, used => (used, att, i)
  | fuel + 1, i, att, used =>
    if used.length < n ∧ att < maxA then
      if has_near used (ρ i % total_days) then
        phase1 ρ n maxA fuel (i + 1) (att + 1) used
      else phase1 ρ n maxA fuel (i + 1) (att + 1) (ρ i % total_days :: used)
    else (used, att, i)

/-- Second loop (lines 119-123): accept `d` only when `d`, `d-1`, `d+1` are
all unused (`d - 1 not in used_days` is vacuous in Python when `d = 0`), and
increment `attempts` unconditionally. -/
def phase2 (ρ : ℕ → ℕ) (n maxA : ℕ) : ℕ → ℕ → ℕ → List ℕ → List ℕ × ℕ × ℕ
  | 0, i, att, used => (used, att, i)
  | fuel + 1, i, att, used =>
    if used.length < n ∧ att < maxA * 2 then
      if ρ i % total_days ∉ used ∧
          (ρ i % total_days = 0 ∨ ρ i % total_days - 1 ∉ used) ∧
          ρ i % total_days + 1 ∉ used then
        phase2 ρ n maxA fuel (i + 1) (att + 1) (ρ i % total_days :: used)
      else phase2 ρ n maxA fuel (i + 1) (att + 1) used
    else (used, att, i)

/-- Third loop (lines 126-129): unbounded fill ignoring spacing; `none` means
the modelled run has not terminated within `fuel` iterations. -/
def phase3 (ρ : ℕ → ℕ) (n : ℕ) : ℕ → ℕ → List ℕ → Option (List ℕ × ℕ)
  | 0, i, used => if used.length < n then none else some (used, i)
  | fuel + 1, i, used =>
    if used.length < n then
      if ρ i % total_days ∈ used then phase3 ρ n fuel (i + 1) used
      else phase3 ρ n fuel (i + 1) (ρ i % total_days :: used)
    else some (used, i)

/-- Phases 1 and 2 together, with their exact attempt budgets
(`max_attempts = n * 200`). -/
def phase12 (ρ : ℕ → ℕ) (n i : ℕ) : List ℕ × ℕ × ℕ :=
  let maxA := n * 200
  let r1 := phase1 ρ n maxA maxA i 0 []
  phase2 ρ n maxA (maxA * 2) r1.2.2 r1.2.1 r1.1

/-- `gen_user_dates` (lines 95-132): offsets of the generated visit dates,
sorted ascending and truncated to `n` (`sorted(used_days)` then `dates[:n]`). -/
def gen_user_dates (n : ℕ) (ρ : ℕ → ℕ) (i fuel : ℕ) : Option (List ℕ × ℕ) :=
  if n = 0 then some ([], i)
  else
    match phase3 ρ n fuel (phase12 ρ n i).2.2 (phase12 ρ n i).1 with
    | none => none
    | some (u3, i3) => some ((List.insertionSort (· ≤ ·) u3).take n, i3)

/-- The documented non-adjacency rule (lines 98-99): all chosen offsets are
pairwise at least 2 days apart. -/
def well_spaced (used : List ℕ) : Prop :=
  ∀ a ∈ used, ∀ b ∈ used, a ≠ b → 2 ≤ Nat.dist a b

/-- Invariant of the `used_days` set: duplicate-free, in range, and never
larger than the requested count. -/
def DateInv (n : ℕ) (used : List ℕ) : Prop :=
  used.Nodup ∧ (∀ x ∈ used, x < total_days) ∧ used.length ≤ n

/-! ### random.sample / random.shuffle (used at lines 249 and 256-260)

`random.sample(pop, k)` and `random.shuffle` are standard-library
primitives: both produce a without-replacement selection determined by the
generator state.  They are modelled by repeatedly drawing an index into the
remaining population and removing the chosen element, one raw draw per
selected element; every possible selection order is realised by some draw
stream, so quantifying over `ρ` covers the primitives' whole behaviour. -/

def sampleAux (ρ : ℕ → ℕ) : ℕ → ℕ → List ℕ → List ℕ
  | 0, _, _ => []
  | k + 1, i, l =>
    if l = [] then []
    else
      l.getD (ρ i % l.length) 0 ::
        sampleAux ρ k (i + 1) (l.erase (l.getD (ρ i % l.length) 0))

/-- `random.sample(l, k)`: `k` distinct elements of `l` in drawn order. -/
def sample (ρ : ℕ → ℕ) (i : ℕ) (l : List ℕ) (k : ℕ) : List ℕ :=
  sampleAux ρ k i l

/-- `choose_restaurants_for_user` (lines 256-260): sample `n` restaurant ids
without repetition, capped at the whole catalog when `n` is at least its
size.  Returns the drawn list and the next draw position. -/
def choose_restaurants_for_user (ρ : ℕ → ℕ) (i n : ℕ)
    (restaurant_ids : List ℕ) : List ℕ × ℕ :=
  if restaurant_ids.length ≤ n then
    (sample ρ i restaurant_ids restaurant_ids.length,
      i + (sample ρ i restaurant_ids restaurant_ids.length).length)
  else
    (sample ρ i restaurant_ids n, i + (sample ρ i restaurant_ids n).length)

/-- `pick_cohorts` (lines 246-253): shuffle the user ids
(`random.shuffle`, modelled as a full-length sample) and slice off the VIP,
LOYAL and REGULAR segments. -/
def pick_cohorts (ρ : ℕ → ℕ) (i : ℕ) (V L R : ℕ) (user_ids : List ℕ) :
    (List ℕ × List ℕ × List ℕ) × ℕ :=
  ((( sample ρ i user_ids user_ids.length).take V,
    ((sample ρ i user_ids user_ids.length).drop V).take L,
    ((sample ρ i user_ids user_ids.length).drop (V + L)).take R),
   i + user_ids.length)

/-- Loop body of `pack_slots_by_target` (lines 271-283): append the slot to
the running batch; once the batch reaches `target`, emit it truncated to
`hard_max` and start a new one; emit the final partial batch if nonempty. -/
def packGo {α : Type} (target hard_max : ℕ) : List α → List α → List (List α)
  | [], current => if current.isEmpty then [] else [current]
  | s :: rest, current =>
    if target ≤ (current ++ [s]).length then
      (current ++ [s]).take hard_max :: packGo target hard_max rest []
    else packGo target hard_max rest (current ++ [s])

/-- `pack_slots_by_target` (lines 271-283): greedy packing of the slot
sequence into batches of `target`, never exceeding `hard_max`. -/
def pack_slots_by_target {α : Type} (slots : List α) (target hard_max : ℕ) :
    List (List α) :=
  packGo target hard_max slots []

/-- The cohort stage of `run` (lines 365-377): the population check at line
370 aborts the run (`raise SystemExit`) before anything is generated or
written; only when it passes are the cohorts picked. -/
def run_cohort_stage (ρ : ℕ → ℕ) (i : ℕ) (V L R : ℕ) (user_ids : List ℕ) :
    Except String ((List ℕ × List ℕ × List ℕ) × ℕ) :=
  if user_ids.length < V + L + R then
    Except.error "Not enough users for the requested cohort sizes."
  else Except.ok (pick_cohorts ρ i V L R user_ids)

/-- `assign_for` (lines 382-386): draw the user's target count
(`random.randint(n_min, n_max)`), sample that many restaurants, generate the
visit dates, and zip them into the user's plan.  Dates are day offsets. -/
def assign_for (ρ : ℕ → ℕ) (i : ℕ) (n_min n_max : ℕ)
    (restaurant_ids : List ℕ) (fuel : ℕ) : Option (List (ℕ × ℕ) × ℕ) :=
  match gen_user_dates (n_min + ρ i % (n_max - n_min + 1)) ρ
      (choose_restaurants_for_user ρ (i + 1)
        (n_min + ρ i % (n_max - n_min + 1)) restaurant_ids).2 fuel with
  | none => none
  | some (dates, i2) =>
    some ((choose_restaurants_for_user ρ (i + 1)
      (n_min + ρ i % (n_max - n_min + 1)) restaurant_ids).1.zip dates, i2)

/-! ### The content generator (lines 137-241)

Python floats are modelled as rationals.  `random.random()` is modelled in
thousandths (`ρ i % 1000` against thresholds 600 and 900 for 0.6 and 0.9);
`round(random.uniform(a, b), 1)` is modelled directly as a draw of tenths in
`[10a, 10b]`, its exact range; `round(x, 1)` on a clamped rating is modelled
as `round (x * 10) / 10` (Python's round-half-to-even and `round`'s
half-up differ only in which tenth a half-tenth boundary maps to, which no
claim depends on). -/

/-- A unit of generation work (lines 409-418 of `run`). -/
structure Slot where
  slot_id : ℕ
  user_id : ℕ
  restaurant_id : ℕ
  name : String
  description : String
  visited_at : String
deriving DecidableEq

/-- Generated review content keyed back to its slot (lines 169-241). -/
structure GeneratedContent where
  slot_id : ℕ
  review_text : String
  rating : ℚ
deriving DecidableEq

def POS_ADJ : List String :=
  ["깔끔하고", "신선하고", "풍미가 좋고", "친절하고", "분위기가 좋고",
   "재방문 의사 있고", "가격대도 괜찮고"]

def MID_ADJ : List String :=
  ["무난하고", "평범하고", "아쉬운 점도 있지만", "분위기는 괜찮고"]

def NEG_ADJ : List String :=
  ["간이 세고", "기대보다 밍밍하고", "서비스가 아쉽고", "재료가 부족하고"]

/-- `fallback_review_text` (lines 142-157): sentiment tier drawn with
thresholds 0.6 / 0.9, a canned phrase with the restaurant name, the first 40
characters of the description and a drawn adjective, its rating drawn from
the tier's range in tenths, and the text capped at 200 characters.  Consumes
three draws. -/
def fallback_review_text (ρ : ℕ → ℕ) (i : ℕ) (name desc : String) :
    (String × ℚ) × ℕ :=
  if ρ i % 1000 < 600 then
    (((name ++ " 다녀왔어요. " ++ desc.take 40 ++ " "
          ++ POS_ADJ.getD (ρ (i + 1) % POS_ADJ.length) ""
          ++ " 전반적으로 만족스러웠습니다.").take 200,
      ((40 + ρ (i + 2) % 11 : ℕ) : ℚ) / 10), i + 3)
  else if ρ i % 1000 < 900 then
    (((name ++ " 방문 후기. " ++ desc.take 40 ++ " "
          ++ MID_ADJ.getD (ρ (i + 1) % MID_ADJ.length) ""
          ++ " 가볍게 식사하기 좋아요.").take 200,
      ((30 + ρ (i + 2) % 11 : ℕ) : ℚ) / 10), i + 3)
  else
    (((name ++ " 이용해봤는데 "
          ++ NEG_ADJ.getD (ρ (i + 1) % NEG_ADJ.length) ""
          ++ " 기대에는 조금 못 미쳤어요.").take 200,
      ((20 + ρ (i + 2) % 16 : ℕ) : ℚ) / 10), i + 3)

/-- One line of the external service's response (lines 219-232): a line that
fails to parse as JSON, or a record whose `slot_id`, `review_text` and
`rating` fields may each be missing or of the wrong type (`none`). -/
inductive RespLine where
  | garbage : RespLine
  | record : Option ℕ → Option String → Option ℚ → RespLine

/-- Outcome of the external call (lines 201-216): any exception degrades the
entire batch to fallback content; on success the response text is a sequence
of independent lines. -/
inductive LLMOutcome where
  | failure : LLMOutcome
  | success : List RespLine → LLMOutcome

/-- The `results` dict built at lines 218-232: later valid records for the
same slot id overwrite earlier ones; records with a missing slot id,
non-string text or non-numeric rating are discarded; accepted ratings are
clamped into `[0, 5]` and rounded to one decimal, texts capped at 200. -/
def parse_results (lines : List RespLine) : ℕ → Option GeneratedContent :=
  lines.foldl
    (fun acc line =>
      match line with
      | .garbage => acc
      | .record osid otxt orat =>
        match osid, otxt, orat with
        | some sid, some txt, some rat =>
          fun k =>
            if k = sid then
              some ⟨sid, txt.take 200,
                ((round (max 0 (min 5 rat) * 10) : ℤ) : ℚ) / 10⟩
            else acc k
        | _, _, _ => acc)
    (fun _ => none)

/-- The no-service early return (lines 174-181) and the exception fallback
(lines 209-216): fallback content for every slot, in slot order. -/
def fallback_all (ρ : ℕ → ℕ) : ℕ → List Slot → List GeneratedContent × ℕ
  | i, [] => ([], i)
  | i, s :: rest =>
    ((⟨s.slot_id, (fallback_review_text ρ i s.name s.description).1.1,
        (fallback_review_text ρ i s.name s.description).1.2⟩ : GeneratedContent)
        :: (fallback_all ρ (fallback_review_text ρ i s.name s.description).2 rest).1,
      (fallback_all ρ (fallback_review_text ρ i s.name s.description).2 rest).2)

/-- The final assembly loop (lines 234-241): each slot takes its parsed
record if one exists, otherwise fresh fallback content. -/
def gen_out (ρ : ℕ → ℕ) (rmap : ℕ → Option GeneratedContent) :
    ℕ → List Slot → List GeneratedContent × ℕ
  | i, [] => ([], i)
  | i, s :: rest =>
    match rmap s.slot_id with
    | some g => (g :: (gen_out ρ rmap i rest).1, (gen_out ρ rmap i rest).2)
    | none =>
      ((⟨s.slot_id, (fallback_review_text ρ i s.name s.description).1.1,
          (fallback_review_text ρ i s.name s.description).1.2⟩ : GeneratedContent)
          :: (gen_out ρ rmap (fallback_review_text ρ i s.name s.description).2 rest).1,
        (gen_out ρ rmap (fallback_review_text ρ i s.name s.description).2 rest).2)

/-- `ReviewLLM.generate_for_slots` (lines 169-241). -/
def generate_for_slots (ρ : ℕ → ℕ) (i : ℕ) (use_openai : Bool)
    (slots : List Slot) (outcome : LLMOutcome) : List GeneratedContent × ℕ :=
  if use_openai = false ∨ slots = [] then fallback_all ρ i slots
  else
    match outcome with
    | .failure => fallback_all ρ i slots
    | .success lines => gen_out ρ (parse_results lines) i slots

/-! ### Review rows, photos and the streaming writer (lines 286-360)

Rows and photos are polymorphic in the timestamp type `τ`: the writer never
inspects `created_at`/`updated_at`, it only copies them from a review row
into its derived photo records.  All writer claims are at `τ := String`
(Python's `"%Y-%m-%d %H:%M:%S"` strings); determinism under erased
timestamps (C1) is settled through the same definitions at `τ := Unit`.
A `Chunk` records one flushed pair of files `review_<last_id>.json` /
`review_photo_<last_id>.json`: JSON serialisation of these records is
injective, so byte contents of a file are identified with the record list
it serialises. -/

/-- A review row as assembled by `run_prompt` (lines 445-456), before its
review id is assigned. -/
structure Row (τ : Type) where
  user_id : ℕ
  restaurant_id : ℕ
  rating : ℚ
  review_text : String
  visited_at : String
  is_deleted : Bool
  created_at : τ
  updated_at : τ
deriving DecidableEq

/-- A review photo record (lines 303-312); `photo_id` is always `None`. -/
structure Photo (τ : Type) where
  photo_id : Option ℕ
  review_id : ℕ
  image_url : String
  is_deleted : Bool
  created_at : τ
  updated_at : τ
deriving DecidableEq

/-- One flushed pair of output files, named by the last review id they
contain (lines 324-333 and 346-355). -/
structure Chunk (τ : Type) where
  last_id : ℕ
  reviews : List (ℕ × Row τ)
  photos : List (Photo τ)
deriving DecidableEq

/-- `ReviewStreamer` state (lines 288-295) plus the log of written chunks
(the files produced by its `json.dump` calls, in write order). -/
structure ReviewStreamer (τ : Type) where
  chunk_size : ℕ
  buffer : List (ℕ × Row τ)
  next_review_id : ℕ
  written : List (Chunk τ)

/-- Review-id assignment loop (lines 317-320). -/
def number_rows {τ : Type} : ℕ → List (Row τ) → List (ℕ × Row τ)
  | _, [] => []
  | start, r :: rs => (start, r) :: number_rows (start + 1) rs

/-- `_build_review_photos` (lines 297-313): 0-3 photos per review
(`random.randint(0, 3)`, one draw per review), each photo carrying the
parent's review id, a derived url and the parent's timestamps. -/
def build_review_photos {τ : Type} (ρ : ℕ → ℕ) :
    ℕ → List (ℕ × Row τ) → List (Photo τ) × ℕ
  | i, [] => ([], i)
  | i, (rid, rv) :: rest =>
    ((List.range
          (REVIEW_PHOTO_MIN + ρ i % (REVIEW_PHOTO_MAX - REVIEW_PHOTO_MIN + 1))).map
        (fun idx =>
          ⟨none, rid, "/reviews/" ++ toString rid ++ "/" ++ toString (idx + 1),
            false, rv.created_at, rv.updated_at⟩)
        ++ (build_review_photos ρ (i + 1) rest).1,
      (build_review_photos ρ (i + 1) rest).2)

/-- The flush loop of `add_rows_and_maybe_flush` (lines 322-338): while the
buffer holds at least `chunk_size` rows, write the first `chunk_size` of
them (and their photos) as one chunk named by its last review id, then drop
them from the buffer.  Fuel-indexed; a call with fuel `buffer.length` is
exact whenever `chunk_size > 0`, since every iteration removes at least one
row. -/
def flush_go {τ : Type} (ρ : ℕ → ℕ) :
    ℕ → ReviewStreamer τ → ℕ → ReviewStreamer τ × ℕ
  | 0, s, i => (s, i)
  | fuel + 1, s, i =>
    if s.chunk_size ≤ s.buffer.length then
      flush_go ρ fuel
        ⟨s.chunk_size,
          s.buffer.drop s.chunk_size,
          s.next_review_id,
          s.written
            ++ [⟨(match (s.buffer.take s.chunk_size).getLast? with
                  | some p => p.1
                  | none => 0),
                s.buffer.take s.chunk_size,
                (build_review_photos ρ i (s.buffer.take s.chunk_size)).1⟩]⟩
        (build_review_photos ρ i (s.buffer.take s.chunk_size)).2
    else (s, i)

/-- `add_rows_and_maybe_flush` (lines 315-338): assign ids, append to the
buffer, then flush full chunks. -/
def add_rows_and_maybe_flush {τ : Type} (ρ : ℕ → ℕ) (s : ReviewStreamer τ)
    (rows : List (Row τ)) (i : ℕ) : ReviewStreamer τ × ℕ :=
  flush_go ρ (s.buffer.length + rows.length)
    ⟨s.chunk_size, s.buffer ++ number_rows s.next_review_id rows,
      s.next_review_id + rows.length, s.written⟩ i

/-- `flush_remaining` (lines 340-360): write the final partial chunk. -/
def flush_remaining {τ : Type} (ρ : ℕ → ℕ) (s : ReviewStreamer τ) (i : ℕ) :
    ReviewStreamer τ × ℕ :=
  if s.buffer.isEmpty then (s, i)
  else
    (⟨s.chunk_size, [],
        s.next_review_id,
        s.written
          ++ [⟨(match s.buffer.getLast? with
                | some p => p.1
                | none => 0),
              s.buffer,
              (build_review_photos ρ i s.buffer).1⟩]⟩,
      (build_review_photos ρ i s.buffer).2)

/-- A sequence of `add_rows_and_maybe_flush` calls. -/
def apply_calls {τ : Type} (ρ : ℕ → ℕ) :
    ReviewStreamer τ × ℕ → List (List (Row τ)) → ReviewStreamer τ × ℕ
  | si, [] => si
  | si, rows :: rest =>
    apply_calls ρ (add_rows_and_maybe_flush ρ si.1 rows si.2) rest

/-- All rows the streamer has accepted, with their assigned ids, in
acceptance order: flushed chunks first, then the live buffer. -/
def allRows {τ : Type} (s : ReviewStreamer τ) : List (ℕ × Row τ) :=
  (s.written.map Chunk.reviews).flatten ++ s.buffer

/-- Run invariant of the writer: every written chunk is exactly full and its
photo records reference only its own review rows; assigned ids are dense
from 1; the flushed and buffered row counts match the id counter. -/
def StreamInv {τ : Type} (s : ReviewStreamer τ) : Prop :=
  s.buffer.length < s.chunk_size ∧
    (∀ c ∈ s.written, c.reviews.length = s.chunk_size ∧
      ∀ p ∈ c.photos, p.review_id ∈ c.reviews.map Prod.fst) ∧
    (allRows s).map Prod.fst = List.range' 1 (s.next_review_id - 1) ∧
    1 ≤ s.next_review_id ∧
    s.chunk_size * s.written.length + s.buffer.length = s.next_review_id - 1

/-! ### run_prompt and the orchestrated pipeline (lines 420-470) -/

/-- `results_map` (line 432): a dict keyed by slot id, later records
overwriting earlier ones. -/
def results_map (results : List GeneratedContent) :
    ℕ → Option GeneratedContent :=
  fun k => (results.filter (fun r => r.slot_id == k)).getLast?

/-- The row-assembly loop of `run_prompt` (lines 435-456): each slot's
generated record (or fresh fallback content when its id is missing from the
map — dead in practice, but present in the source) becomes a review row
stamped with the wall-clock string `nowts` of line 433. -/
def run_prompt_rows {τ : Type} (ρ : ℕ → ℕ)
    (rmap : ℕ → Option GeneratedContent) (nowts : τ) :
    ℕ → List Slot → List (Row τ) × ℕ
  | i, [] => ([], i)
  | i, s :: rest =>
    match rmap s.slot_id with
    | some rr =>
      (⟨s.user_id, s.restaurant_id, rr.rating, rr.review_text.take 200,
          s.visited_at, false, nowts, nowts⟩
          :: (run_prompt_rows ρ rmap nowts i rest).1,
        (run_prompt_rows ρ rmap nowts i rest).2)
    | none =>
      (⟨s.user_id, s.restaurant_id,
          (fallback_review_text ρ i s.name s.description).1.2,
          (fallback_review_text ρ i s.name s.description).1.1.take 200,
          s.visited_at, false, nowts, nowts⟩
          :: (run_prompt_rows ρ rmap nowts
              (fallback_review_text ρ i s.name s.description).2 rest).1,
        (run_prompt_rows ρ rmap nowts
            (fallback_review_text ρ i s.name s.description).2 rest).2)

/-- `run_prompt` (lines 429-457). -/
def run_prompt {τ : Type} (ρ : ℕ → ℕ) (i : ℕ) (use_openai : Bool)
    (outcome : LLMOutcome) (slots : List Slot) (nowts : τ) :
    List (Row τ) × ℕ :=
  run_prompt_rows ρ
    (results_map (generate_for_slots ρ i use_openai slots outcome).1) nowts
    (generate_for_slots ρ i use_openai slots outcome).2 slots

/-- The concurrency windows of lines 461-462:
`prompt_tasks[start : start + CONCURRENT_PROMPTS]`. -/
def groupsOf_go {α : Type} (k : ℕ) : ℕ → List α → List (List α)
  | 0, _ => []
  | _, [] => []
  | fuel + 1, x :: xs => (x :: xs).take k :: groupsOf_go k fuel ((x :: xs).drop k)

def groupsOf {α : Type} (k : ℕ) (l : List α) : List (List α) :=
  groupsOf_go k l.length l

/-- One window's generation phase (line 463): with no external service the
fallback path never suspends, so `asyncio.gather` runs the window's
`run_prompt`s in submission order; the `b`-th prompt overall reads the clock
as `now b`. -/
def gen_rows_for_group {τ : Type} (ρ : ℕ → ℕ) (now : ℕ → τ) :
    ℕ → ℕ → List (List Slot) → List (List (Row τ)) × ℕ × ℕ
  | i, b, [] => ([], i, b)
  | i, b, batch :: rest =>
    ((run_prompt ρ i false LLMOutcome.failure batch (now b)).1
        :: (gen_rows_for_group ρ now
            (run_prompt ρ i false LLMOutcome.failure batch (now b)).2
            (b + 1) rest).1,
      (gen_rows_for_group ρ now
          (run_prompt ρ i false LLMOutcome.failure batch (now b)).2
          (b + 1) rest).2)

/-- The window loop of lines 461-467: generate a window's rows, then hand
each list to the writer in order. -/
def run_groups {τ : Type} (ρ : ℕ → ℕ) (now : ℕ → τ) :
    List (List (List Slot)) → ReviewStreamer τ × ℕ → ℕ →
      ReviewStreamer τ × ℕ
  | [], si, _ => si
  | g :: gs, si, b =>
    run_groups ρ now gs
      (apply_calls ρ (si.1, (gen_rows_for_group ρ now si.2 b g).2.1)
        (gen_rows_for_group ρ now si.2 b g).1)
      (gen_rows_for_group ρ now si.2 b g).2.2

/-- The whole pipeline of `run` after slot flattening, with no external
service configured (lines 420-470): pack the slots, process them in windows
of `CONCURRENT_PROMPTS` prompts, stream the rows into 1000-row chunk files
and flush the remainder.  The result is the list of written chunk files. -/
def run_pipeline {τ : Type} (ρ : ℕ → ℕ) (slots : List Slot) (now : ℕ → τ) :
    List (Chunk τ) :=
  (flush_remaining ρ
      (run_groups ρ now
        (groupsOf CONCURRENT_PROMPTS
          (pack_slots_by_target slots TARGET_SLOTS_PER_PROMPT
            MAX_SLOTS_PER_PROMPT))
        ((⟨CHUNK_SIZE, [], 1, []⟩ : ReviewStreamer τ), 0) 0).1
      (run_groups ρ now
        (groupsOf CONCURRENT_PROMPTS
          (pack_slots_by_target slots TARGET_SLOTS_PER_PROMPT
            MAX_SLOTS_PER_PROMPT))
        ((⟨CHUNK_SIZE, [], 1, []⟩ : ReviewStreamer τ), 0) 0).2).1.written

/-! ### Timestamp mapping: the program text is timestamp-agnostic.
Mapping every timestamp with a function `f` commutes with the pipeline;
instantiating `f` with the constant `()` erases timestamps and settles how
much of the output is independent of the wall clock. -/

def Row.map_ts {τ σ : Type} (f : τ → σ) (r : Row τ) : Row σ :=
  ⟨r.user_id, r.restaurant_id, r.rating, r.review_text, r.visited_at,
    r.is_deleted, f r.created_at, f r.updated_at⟩

def Photo.map_ts {τ σ : Type} (f : τ → σ) (p : Photo τ) : Photo σ :=
  ⟨p.photo_id, p.review_id, p.image_url, p.is_deleted, f p.created_at,
    f p.updated_at⟩

def Chunk.map_ts {τ σ : Type} (f : τ → σ) (c : Chunk τ) : Chunk σ :=
  ⟨c.last_id, c.reviews.map (fun p => (p.1, p.2.map_ts f)),
    c.photos.map (Photo.map_ts f)⟩

def ReviewStreamer.map_ts {τ σ : Type} (f : τ → σ) (s : ReviewStreamer τ) :
    ReviewStreamer σ :=
  ⟨s.chunk_size, s.buffer.map (fun p => (p.1, p.2.map_ts f)),
    s.next_review_id, s.written.map (Chunk.map_ts f)⟩

end SynthReviews

namespace SynthReviews

/-! ### Lemmas about the visit-date generator -/

theorem total_days_eq : total_days = 943 := by decide

theorem total_days_pos : 0 < total_days := by rw [total_days_eq]; omega

theorem dateInv_nil (n : ℕ) : DateInv n [] := by
  refine ⟨List.nodup_nil, ?_, ?_⟩ <;> simp

theorem well_spaced_nil : well_spaced [] := by
  intro a ha; simp at ha

theorem dateInv_cons {n : ℕ} {used : List ℕ} {d : ℕ} (h : DateInv n used)
    (hlen : used.length < n) (hd : d < total_days) (hmem : d ∉ used) :
    DateInv n (d :: used) := by
  obtain ⟨h1, h2, h3⟩ := h
  refine ⟨List.nodup_cons.mpr ⟨hmem, h1⟩, ?_, ?_⟩
  · intro x hx
    rcases List.mem_cons.mp hx with rfl | hx
    · exact hd
    · exact h2 x hx
  · simpa using hlen

theorem well_spaced_cons {used : List ℕ} {d : ℕ} (h : well_spaced used)
    (hfar : ∀ u ∈ used, 2 ≤ Nat.dist u d) : well_spaced (d :: used) := by
  intro a ha b hb hne
  rcases List.mem_cons.mp ha with ha' | ha'
  · rcases List.mem_cons.mp hb with hb' | hb'
    · exact absurd (ha'.trans hb'.symm) hne
    · subst ha'; rw [Nat.dist_comm]; exact hfar b hb'
  · rcases List.mem_cons.mp hb with hb' | hb'
    · subst hb'; exact hfar a ha'
    · exact h a ha' b hb' hne

theorem not_has_near_far {used : List ℕ} {d : ℕ} (h : ¬ has_near used d) :
    ∀ u ∈ used, 2 ≤ Nat.dist u d := by
  intro u hu
  by_contra hlt
  exact h ⟨u, hu, by omega⟩

theorem not_has_near_not_mem {used : List ℕ} {d : ℕ} (h : ¬ has_near used d) :
    d ∉ used := by
  intro hmem
  exact h ⟨d, hmem, by simp [Nat.dist_self]⟩

theorem phase2_guard_far {used : List ℕ} {d : ℕ}
    (h : d ∉ used ∧ (d = 0 ∨ d - 1 ∉ used) ∧ d + 1 ∉ used) :
    ∀ u ∈ used, 2 ≤ Nat.dist u d := by
  obtain ⟨hd, hdm, hdp⟩ := h
  intro u hu
  by_contra hlt
  have hcases : u = d ∨ u = d + 1 ∨ (1 ≤ d ∧ u = d - 1) := by
    simp only [Nat.dist, not_le] at hlt; omega
  rcases hcases with rfl | rfl | ⟨hd1, rfl⟩
  · exact hd hu
  · exact hdp hu
  · rcases hdm with h0 | hdm
    · omega
    · exact hdm hu

theorem phase1_pres (ρ : ℕ → ℕ) (n maxA : ℕ) :
    ∀ fuel i att used, DateInv n used → well_spaced used →
      DateInv n (phase1 ρ n maxA fuel i att used).1 ∧
        well_spaced (phase1 ρ n maxA fuel i att used).1 := by
  intro fuel
  induction fuel with
  | zero => intro i att used h hs; simpa [phase1] using ⟨h, hs⟩
  | succ fuel ih =>
    intro i att used h hs
    rw [phase1]
    split
    · rename_i hcond
      split
      · exact ih _ _ _ h hs
      · rename_i hnear
        exact ih _ _ _
          (dateInv_cons h hcond.1 (Nat.mod_lt _ total_days_pos)
            (not_has_near_not_mem hnear))
          (well_spaced_cons hs (not_has_near_far hnear))
    · exact ⟨h, hs⟩

theorem phase2_pres (ρ : ℕ → ℕ) (n maxA : ℕ) :
    ∀ fuel i att used, DateInv n used → well_spaced used →
      DateInv n (phase2 ρ n maxA fuel i att used).1 ∧
        well_spaced (phase2 ρ n maxA fuel i att used).1 := by
  intro fuel
  induction fuel with
  | zero => intro i att used h hs; simpa [phase2] using ⟨h, hs⟩
  | succ fuel ih =>
    intro i att used h hs
    rw [phase2]
    split
    · rename_i hcond
      split
      · rename_i hok
        exact ih _ _ _
          (dateInv_cons h hcond.1 (Nat.mod_lt _ total_days_pos) hok.1)
          (well_spaced_cons hs (phase2_guard_far hok))
      · exact ih _ _ _ h hs
    · exact ⟨h, hs⟩

theorem phase12_pres (ρ : ℕ → ℕ) (n i : ℕ) :
    DateInv n (phase12 ρ n i).1 ∧ well_spaced (phase12 ρ n i).1 := by
  unfold phase12
  have h1 := phase1_pres ρ n (n * 200) (n * 200) i 0 [] (dateInv_nil n) well_spaced_nil
  exact phase2_pres ρ n (n * 200) (n * 200 * 2) _ _ _ h1.1 h1.2

/-- A duplicate-free list of naturals below `N` has at most `N` elements. -/
theorem length_le_of_nodup_lt {l : List ℕ} {N : ℕ} (hnd : l.Nodup)
    (hlt : ∀ x ∈ l, x < N) : l.length ≤ N := by
  have hsub : l.toFinset ⊆ Finset.range N := by
    intro x hx
    exact Finset.mem_range.mpr (hlt x (List.mem_toFinset.mp hx))
  have := Finset.card_le_card hsub
  rwa [List.toFinset_card_of_nodup hnd, Finset.card_range] at this

/-- Phase 3 can never fill past the number of days in the range: with
`total_days < n` it loops forever (returns `none` for every fuel). -/
theorem phase3_none_of_total_lt (ρ : ℕ → ℕ) {n : ℕ} (hn : total_days < n) :
    ∀ fuel i used, used.Nodup → (∀ x ∈ used, x < total_days) →
      phase3 ρ n fuel i used = none := by
  intro fuel
  induction fuel with
  | zero =>
    intro i used hnd hlt
    have hlen : used.length < n := by
      have := length_le_of_nodup_lt hnd hlt; omega
    rw [phase3, if_pos hlen]
  | succ fuel ih =>
    intro i used hnd hlt
    have hlen : used.length < n := by
      have := length_le_of_nodup_lt hnd hlt; omega
    rw [phase3, if_pos hlen]
    split
    · exact ih _ _ hnd hlt
    · rename_i hmem
      exact ih _ _ (List.nodup_cons.mpr ⟨hmem, hnd⟩)
        (by
          intro x hx
          rcases List.mem_cons.mp hx with rfl | hx
          · exact Nat.mod_lt _ total_days_pos
          · exact hlt x hx)

/-- When phase 3 terminates, the set holds exactly `n` offsets, still
duplicate-free. -/
theorem phase3_some_spec (ρ : ℕ → ℕ) (n : ℕ) :
    ∀ fuel i used, used.Nodup → used.length ≤ n →
      ∀ u3 i3, phase3 ρ n fuel i used = some (u3, i3) →
        u3.Nodup ∧ u3.length = n := by
  intro fuel
  induction fuel with
  | zero =>
    intro i used hnd hle u3 i3 h
    rw [phase3] at h
    split at h
    · exact absurd h (by simp)
    · rename_i hfull
      obtain ⟨rfl, rfl⟩ : used = u3 ∧ i = i3 := by
        simpa using h
      exact ⟨hnd, by omega⟩
  | succ fuel ih =>
    intro i used hnd hle u3 i3 h
    rw [phase3] at h
    split at h
    · rename_i hlt
      split at h
      · exact ih _ _ hnd hle u3 i3 h
      · rename_i hmem
        exact ih _ _ (List.nodup_cons.mpr ⟨hmem, hnd⟩) (by simp; omega) u3 i3 h
    · rename_i hfull
      obtain ⟨rfl, rfl⟩ : used = u3 ∧ i = i3 := by
        simpa using h
      exact ⟨hnd, by omega⟩

/-- Phase 3 with an already-full set returns it unchanged. -/
theorem phase3_of_full (ρ : ℕ → ℕ) {n : ℕ} (fuel i : ℕ) {used : List ℕ}
    (h : n ≤ used.length) : phase3 ρ n fuel i used = some (used, i) := by
  cases fuel <;> · rw [phase3, if_neg (Nat.not_lt.mpr h)]

/-- Strictly ascending order from `≤`-sortedness plus distinctness. -/
theorem sorted_lt_of_sorted_le_nodup {l : List ℕ}
    (hs : List.Sorted (· ≤ ·) l) (hnd : l.Nodup) : List.Sorted (· < ·) l :=
  (hs.and hnd).imp fun h => lt_of_le_of_ne h.1 h.2

/-- If every element of a duplicate-free list lies in a well-spaced set, the
list is pairwise at least 2 days apart. -/
theorem pairwise_dist_of_well_spaced {u : List ℕ} (hu : well_spaced u) :
    ∀ {l : List ℕ}, l.Nodup → (∀ x ∈ l, x ∈ u) →
      List.Pairwise (fun a b => 2 ≤ Nat.dist a b) l := by
  intro l
  induction l with
  | nil => intro _ _; exact List.Pairwise.nil
  | cons a l ih =>
    intro hnd hsub
    rw [List.nodup_cons] at hnd
    refine List.Pairwise.cons ?_ (ih hnd.2 fun x hx => hsub x (List.mem_cons_of_mem _ hx))
    intro b hb
    exact hu a (hsub a (List.mem_cons_self _ _)) b (hsub b (List.mem_cons_of_mem _ hb))
      (fun h => hnd.1 (h ▸ hb))

/-- Whenever the generator terminates it returns exactly `n` offsets in
strictly ascending order. -/
theorem gen_user_dates_some_spec (n : ℕ) (ρ : ℕ → ℕ) (i fuel : ℕ)
    (r : List ℕ) (i' : ℕ) (h : gen_user_dates n ρ i fuel = some (r, i')) :
    r.length = n ∧ List.Sorted (· < ·) r := by
  by_cases hn : n = 0
  · subst hn
    rw [gen_user_dates, if_pos rfl] at h
    simp only [Option.some.injEq, Prod.mk.injEq] at h
    rw [← h.1]
    exact ⟨rfl, List.sorted_nil⟩
  · rw [gen_user_dates, if_neg hn] at h
    have hinv := phase12_pres ρ n i
    rcases hp : phase3 ρ n fuel (phase12 ρ n i).2.2 (phase12 ρ n i).1 with - | ⟨u3, i3⟩
    · rw [hp] at h; exact absurd h (by simp)
    · rw [hp] at h
      simp only [Option.some.injEq, Prod.mk.injEq] at h
      obtain ⟨hr, -⟩ := h
      subst hr
      obtain ⟨hnd3, hlen3⟩ :=
        phase3_some_spec ρ n fuel _ _ hinv.1.1 hinv.1.2.2 u3 i3 hp
      have hperm := List.perm_insertionSort (· ≤ ·) u3
      have hlen : (List.insertionSort (· ≤ ·) u3).length = n := by
        rw [hperm.length_eq, hlen3]
      rw [List.take_of_length_le (le_of_eq hlen)]
      refine ⟨hlen, sorted_lt_of_sorted_le_nodup ?_ ?_⟩
      · exact List.sorted_insertionSort (· ≤ ·) u3
      · exact hperm.nodup_iff.mpr hnd3

/-- For `n` beyond the size of the date range the generator never returns. -/
theorem gen_user_dates_none_of_total_lt (n : ℕ) (ρ : ℕ → ℕ) (i fuel : ℕ)
    (hn : total_days < n) : gen_user_dates n ρ i fuel = none := by
  have hinv := phase12_pres ρ n i
  rw [gen_user_dates, if_neg (by omega),
    phase3_none_of_total_lt _ hn _ _ _ hinv.1.1 hinv.1.2.1]

/-! ### Claim theorems: C2 and C3 -/

/-- C2 (counterexample): it is not true that the visit date generator
terminates for every target count `n` — with `n = 944`, one more than the
number of days in the range, phase 3 never finds a 944th unused offset, so no
amount of fuel makes `gen_user_dates` return. -/
theorem C2_counterexample :
    ¬ ∀ (n : ℕ) (ρ : ℕ → ℕ) (i : ℕ), ∃ fuel r i',
        gen_user_dates n ρ i fuel = some (r, i') := by
  intro h
  obtain ⟨fuel, r, i', hr⟩ := h 944 (fun _ => 0) 0
  rw [gen_user_dates_none_of_total_lt 944 (fun _ => 0) 0 fuel
    (by rw [total_days_eq]; omega)] at hr
  exact absurd hr (by simp)

/-- C2 (amended): whenever `gen_user_dates` terminates it returns exactly `n`
dates, sorted strictly ascending (hence duplicate-free); but for any `n`
larger than the number of days in the range it never terminates — the exact
`n` / sorted / distinct guarantee holds only for feasible target counts. -/
theorem C2_gen_count_sorted_amended :
    (∀ (n : ℕ) (ρ : ℕ → ℕ) (i fuel : ℕ) (r : List ℕ) (i' : ℕ),
        gen_user_dates n ρ i fuel = some (r, i') →
          r.length = n ∧ List.Sorted (· < ·) r)
      ∧ ∀ (n : ℕ) (ρ : ℕ → ℕ) (i fuel : ℕ), total_days < n →
          gen_user_dates n ρ i fuel = none :=
  ⟨gen_user_dates_some_spec, gen_user_dates_none_of_total_lt⟩

/-- Witness for C2: at `n = 1` the generator terminates with one sorted date,
and at `n = 944 > total_days` it returns `none` for a concrete fuel. -/
theorem C2_witness :
    (([0] : List ℕ).length = 1 ∧ List.Sorted (· < ·) [0])
      ∧ gen_user_dates 944 (fun _ => 1) 0 7 = none :=
  ⟨C2_gen_count_sorted_amended.1 1 (fun _ => 0) 0 5 [0] 1 (by decide),
   C2_gen_count_sorted_amended.2 944 (fun _ => 1) 0 7 (by rw [total_days_eq]; omega)⟩

/-- C3 (counterexample): pairwise 2-day spacing is not guaranteed for every
state of the random source, even with `2 * n ≤ total_days`: for `n = 2` a
draw sequence that repeats offset 1 exhausts the phase-1 and phase-2 attempt
budgets and phase 3 then accepts the adjacent offset 1 next to the chosen 0. -/
theorem C3_counterexample :
    ¬ ∀ (n : ℕ) (ρ : ℕ → ℕ) (i fuel : ℕ) (r : List ℕ) (i' : ℕ),
        2 * n ≤ total_days →
        gen_user_dates n ρ i fuel = some (r, i') →
        List.Pairwise (fun a b => 2 ≤ Nat.dist a b) r := by
  intro h
  have hp := h 2 (fun j => if j = 0 then 0 else 1) 0 10 [0, 1] 801
    (by rw [total_days_eq]; omega) (by decide)
  have h01 : 2 ≤ Nat.dist 0 1 := (List.pairwise_cons.mp hp).1 1 (by simp)
  simp only [Nat.dist] at h01
  omega

/-- C3 (amended): the 2-day spacing invariant holds on every run in which
phases 1 and 2 fill all `n` slots within their attempt budgets (phase 3 never
has to relax the rule); an adversarial draw sequence can defeat the budgets
even when `2 * n ≤ total_days`, so feasibility alone does not guarantee it. -/
theorem C3_gen_spacing_amended :
    ∀ (n : ℕ) (ρ : ℕ → ℕ) (i fuel : ℕ) (r : List ℕ) (i' : ℕ),
      (phase12 ρ n i).1.length = n →
      gen_user_dates n ρ i fuel = some (r, i') →
      List.Pairwise (fun a b => 2 ≤ Nat.dist a b) r := by
  intro n ρ i fuel r i' hfull h
  by_cases hn : n = 0
  · subst hn
    rw [gen_user_dates, if_pos rfl] at h
    simp only [Option.some.injEq, Prod.mk.injEq] at h
    rw [← h.1]
    exact List.Pairwise.nil
  · rw [gen_user_dates, if_neg hn,
      phase3_of_full ρ fuel _ (le_of_eq hfull.symm)] at h
    simp only [Option.some.injEq, Prod.mk.injEq] at h
    obtain ⟨hr, -⟩ := h
    subst hr
    have hinv := phase12_pres ρ n i
    have hperm := List.perm_insertionSort (· ≤ ·) (phase12 ρ n i).1
    exact List.Pairwise.sublist (List.take_sublist _ _)
      (pairwise_dist_of_well_spaced hinv.2 (hperm.nodup_iff.mpr hinv.1.1)
        fun x hx => hperm.mem_iff.mp hx)

/-- Witness for C3: a run whose phases 1-2 fill both slots yields a pairwise
2-day-spaced result. -/
theorem C3_witness : List.Pairwise (fun a b => 2 ≤ Nat.dist a b) [0, 10] :=
  C3_gen_spacing_amended 2 (fun j => 10 * j) 0 5 [0, 10] 2 (by decide) (by decide)

/-! ### Lemmas about sampling -/

theorem sampleAux_length (ρ : ℕ → ℕ) :
    ∀ k i (l : List ℕ), (sampleAux ρ k i l).length = min k l.length := by
  intro k
  induction k with
  | zero => intro i l; simp [sampleAux]
  | succ k ih =>
    intro i l
    rw [sampleAux]
    split
    · rename_i hl; subst hl; simp
    · rename_i hl
      have hpos : 0 < l.length := List.length_pos.mpr hl
      have hj : ρ i % l.length < l.length := Nat.mod_lt _ hpos
      have hmem : l.getD (ρ i % l.length) 0 ∈ l := by
        rw [List.getD_eq_getElem _ _ hj]
        exact List.getElem_mem hj
      rw [List.length_cons, ih, List.length_erase_of_mem hmem]
      omega

theorem sampleAux_subset (ρ : ℕ → ℕ) :
    ∀ k i (l : List ℕ), ∀ x ∈ sampleAux ρ k i l, x ∈ l := by
  intro k
  induction k with
  | zero => intro i l x hx; simp [sampleAux] at hx
  | succ k ih =>
    intro i l x hx
    rw [sampleAux] at hx
    split at hx
    · simp at hx
    · rename_i hl
      have hpos : 0 < l.length := List.length_pos.mpr hl
      have hj : ρ i % l.length < l.length := Nat.mod_lt _ hpos
      have hmem : l.getD (ρ i % l.length) 0 ∈ l := by
        rw [List.getD_eq_getElem _ _ hj]
        exact List.getElem_mem hj
      rcases List.mem_cons.mp hx with rfl | hx
      · exact hmem
      · exact List.erase_subset _ _ (ih _ _ x hx)

theorem sampleAux_nodup (ρ : ℕ → ℕ) :
    ∀ k i (l : List ℕ), l.Nodup → (sampleAux ρ k i l).Nodup := by
  intro k
  induction k with
  | zero => intro i l _; simp [sampleAux]
  | succ k ih =>
    intro i l hnd
    rw [sampleAux]
    split
    · simp
    · rename_i hl
      refine List.nodup_cons.mpr ⟨?_, ih _ _ (hnd.erase _)⟩
      intro hx
      have := sampleAux_subset ρ k (i + 1) _ _ hx
      exact (hnd.mem_erase_iff.mp this).1 rfl

theorem sampleAux_perm (ρ : ℕ → ℕ) :
    ∀ k i (l : List ℕ), l.length = k → List.Perm (sampleAux ρ k i l) l := by
  intro k
  induction k with
  | zero =>
    intro i l hl
    rw [List.length_eq_zero.mp hl]
    simp [sampleAux]
  | succ k ih =>
    intro i l hl
    have hl' : l ≠ [] := by
      intro h; rw [h] at hl; simp at hl
    rw [sampleAux, if_neg hl']
    have hpos : 0 < l.length := List.length_pos.mpr hl'
    have hj : ρ i % l.length < l.length := Nat.mod_lt _ hpos
    have hmem : l.getD (ρ i % l.length) 0 ∈ l := by
      rw [List.getD_eq_getElem _ _ hj]
      exact List.getElem_mem hj
    have herase : (l.erase (l.getD (ρ i % l.length) 0)).length = k := by
      rw [List.length_erase_of_mem hmem, hl]; omega
    exact ((ih _ _ herase).cons _).trans (List.perm_cons_erase hmem).symm

theorem sample_length (ρ : ℕ → ℕ) (i : ℕ) (l : List ℕ) (k : ℕ) :
    (sample ρ i l k).length = min k l.length :=
  sampleAux_length ρ k i l

theorem sample_nodup (ρ : ℕ → ℕ) (i : ℕ) {l : List ℕ} (k : ℕ)
    (h : l.Nodup) : (sample ρ i l k).Nodup :=
  sampleAux_nodup ρ k i l h

theorem sample_all_perm (ρ : ℕ → ℕ) (i : ℕ) (l : List ℕ) :
    List.Perm (sample ρ i l l.length) l :=
  sampleAux_perm ρ l.length i l rfl

theorem choose_restaurants_length (ρ : ℕ → ℕ) (i n : ℕ) (rids : List ℕ) :
    (choose_restaurants_for_user ρ i n rids).1.length = min n rids.length := by
  unfold choose_restaurants_for_user
  split
  · rename_i h; simp only [sample_length]; omega
  · rename_i h; simp only [sample_length]

theorem choose_restaurants_nodup (ρ : ℕ → ℕ) (i n : ℕ) {rids : List ℕ}
    (h : rids.Nodup) : (choose_restaurants_for_user ρ i n rids).1.Nodup := by
  unfold choose_restaurants_for_user
  split <;> exact sample_nodup ρ _ _ h

theorem map_fst_zip_eq_take {α β : Type} :
    ∀ (a : List α) (b : List β), (a.zip b).map Prod.fst = a.take b.length := by
  intro a
  induction a with
  | nil => intro b; simp
  | cons x a ih =>
    intro b
    cases b with
    | nil => simp
    | cons y b => simp [ih]

/-! ### Claim theorems: C4 -/

/-- C4 (counterexample): the visit plan does not always hold exactly the
drawn target count of pairs — with a single restaurant and a drawn target of
2, `random.sample` is capped at the catalog size and `zip` truncates the
plan to one pair. -/
theorem C4_counterexample :
    ¬ ∀ (ρ : ℕ → ℕ) (i n_min n_max : ℕ) (rids : List ℕ) (fuel : ℕ)
        (plan : List (ℕ × ℕ)) (i' : ℕ),
        rids.Nodup →
        assign_for ρ i n_min n_max rids fuel = some (plan, i') →
        plan.length = n_min + ρ i % (n_max - n_min + 1) := by
  intro h
  have := h (fun j => 5 * j) 0 2 2 [7] 3 [(7, 10)] 4 (by decide) (by decide)
  exact absurd this (by decide)

/-- C4 (amended): a user's visit plan holds `min target catalog-size` pairs —
exactly the drawn target whenever the catalog has at least that many
restaurants — and never repeats a restaurant id. -/
theorem C4_assign_plan_amended :
    ∀ (ρ : ℕ → ℕ) (i n_min n_max : ℕ) (rids : List ℕ) (fuel : ℕ)
      (plan : List (ℕ × ℕ)) (i' : ℕ),
      rids.Nodup →
      assign_for ρ i n_min n_max rids fuel = some (plan, i') →
      plan.length = min (n_min + ρ i % (n_max - n_min + 1)) rids.length ∧
        (plan.map Prod.fst).Nodup := by
  intro ρ i n_min n_max rids fuel plan i' hnd h
  unfold assign_for at h
  rcases hg : gen_user_dates (n_min + ρ i % (n_max - n_min + 1)) ρ
      (choose_restaurants_for_user ρ (i + 1)
        (n_min + ρ i % (n_max - n_min + 1)) rids).2 fuel with - | ⟨dates, i2⟩
  · rw [hg] at h; exact absurd h (by simp)
  · rw [hg] at h
    simp only [Option.some.injEq, Prod.mk.injEq] at h
    obtain ⟨hp, -⟩ := h
    subst hp
    have hdl : dates.length = n_min + ρ i % (n_max - n_min + 1) :=
      (gen_user_dates_some_spec _ _ _ _ _ _ hg).1
    have hcl := choose_restaurants_length ρ (i + 1)
      (n_min + ρ i % (n_max - n_min + 1)) rids
    constructor
    · rw [List.length_zip, hcl, hdl]
      omega
    · rw [map_fst_zip_eq_take]
      exact (choose_restaurants_nodup ρ (i + 1) _ hnd).sublist
        (List.take_sublist _ _)

/-- Witness for C4: on the catalog `[7]` with drawn target 2 the plan has
`min 2 1 = 1` pair and no repeated restaurant. -/
theorem C4_witness :
    ([(7, 10)] : List (ℕ × ℕ)).length = min (2 + (fun j => 5 * j) 0 % (2 - 2 + 1)) [7].length ∧
      (([(7, 10)] : List (ℕ × ℕ)).map Prod.fst).Nodup :=
  C4_assign_plan_amended (fun j => 5 * j) 0 2 2 [7] 3 [(7, 10)] 4
    (by decide) (by decide)

/-! ### Claim theorems: C9 -/

/-- C9: when the population is at least `V + L + R`, the cohort assigner
produces three pairwise-disjoint groups of exactly the configured sizes; when
it is smaller, the run aborts with an error before producing any output. -/
theorem C9_pick_cohorts_sizes_disjoint_abort :
    ∀ (ρ : ℕ → ℕ) (i V L R : ℕ) (ids : List ℕ), ids.Nodup →
      ((V + L + R ≤ ids.length →
        (pick_cohorts ρ i V L R ids).1.1.length = V ∧
        (pick_cohorts ρ i V L R ids).1.2.1.length = L ∧
        (pick_cohorts ρ i V L R ids).1.2.2.length = R ∧
        (pick_cohorts ρ i V L R ids).1.1.Disjoint (pick_cohorts ρ i V L R ids).1.2.1 ∧
        (pick_cohorts ρ i V L R ids).1.1.Disjoint (pick_cohorts ρ i V L R ids).1.2.2 ∧
        (pick_cohorts ρ i V L R ids).1.2.1.Disjoint (pick_cohorts ρ i V L R ids).1.2.2)
      ∧ (ids.length < V + L + R →
          run_cohort_stage ρ i V L R ids =
            Except.error "Not enough users for the requested cohort sizes.")) := by
  intro ρ i V L R ids hnd
  constructor
  · intro hle
    have hperm := sample_all_perm ρ i ids
    have hlen : (sample ρ i ids ids.length).length = ids.length := hperm.length_eq
    have hnd' : (sample ρ i ids ids.length).Nodup := hperm.nodup_iff.mpr hnd
    unfold pick_cohorts
    dsimp only
    refine ⟨?_, ?_, ?_, ?_, ?_, ?_⟩
    · rw [List.length_take, hlen]; omega
    · rw [List.length_take, List.length_drop, hlen]; omega
    · rw [List.length_take, List.length_drop, hlen]; omega
    · intro a ha hb
      exact List.disjoint_take_drop hnd' (le_refl V) ha (List.take_subset _ _ hb)
    · intro a ha hb
      exact List.disjoint_take_drop hnd' (by omega : V ≤ V + L) ha
        (List.take_subset _ _ hb)
    · intro a ha hb
      have hnd2 : ((sample ρ i ids ids.length).drop V).Nodup :=
        hnd'.sublist (List.drop_sublist _ _)
      have hb' : a ∈ ((sample ρ i ids ids.length).drop V).drop L := by
        rw [List.drop_drop]
        exact List.take_subset _ _ hb
      exact List.disjoint_take_drop hnd2 (le_refl L) ha hb'
  · intro hlt
    unfold run_cohort_stage
    rw [if_pos hlt]

/-- Witness for C9: a 5-user population with cohort sizes 1/2/2 splits into
groups of exactly those sizes, pairwise disjoint; a 2-user population aborts. -/
theorem C9_witness :
    ((pick_cohorts (fun _ => 0) 0 1 2 2 [1, 2, 3, 4, 5]).1.1.length = 1 ∧
      (pick_cohorts (fun _ => 0) 0 1 2 2 [1, 2, 3, 4, 5]).1.2.1.length = 2 ∧
      (pick_cohorts (fun _ => 0) 0 1 2 2 [1, 2, 3, 4, 5]).1.2.2.length = 2 ∧
      (pick_cohorts (fun _ => 0) 0 1 2 2 [1, 2, 3, 4, 5]).1.1.Disjoint
        (pick_cohorts (fun _ => 0) 0 1 2 2 [1, 2, 3, 4, 5]).1.2.1 ∧
      (pick_cohorts (fun _ => 0) 0 1 2 2 [1, 2, 3, 4, 5]).1.1.Disjoint
        (pick_cohorts (fun _ => 0) 0 1 2 2 [1, 2, 3, 4, 5]).1.2.2 ∧
      (pick_cohorts (fun _ => 0) 0 1 2 2 [1, 2, 3, 4, 5]).1.2.1.Disjoint
        (pick_cohorts (fun _ => 0) 0 1 2 2 [1, 2, 3, 4, 5]).1.2.2) ∧
    run_cohort_stage (fun _ => 0) 0 1 2 2 [1, 2] =
      Except.error "Not enough users for the requested cohort sizes." :=
  ⟨(C9_pick_cohorts_sizes_disjoint_abort (fun _ => 0) 0 1 2 2 [1, 2, 3, 4, 5]
      (by decide)).1 (by decide),
   (C9_pick_cohorts_sizes_disjoint_abort (fun _ => 0) 0 1 2 2 [1, 2]
      (by decide)).2 (by decide)⟩

/-! ### Lemmas about the batch packer -/

theorem packGo_join_sublist {α : Type} (t h : ℕ) :
    ∀ (slots current : List α),
      List.Sublist (packGo t h slots current).flatten (current ++ slots) := by
  intro slots
  induction slots with
  | nil =>
    intro current
    rw [packGo]
    split
    · simp
    · simp
  | cons s rest ih =>
    intro current
    rw [packGo]
    split
    · have h1 : List.Sublist ((current ++ [s]).take h) (current ++ [s]) :=
        List.take_sublist _ _
      have h2 : List.Sublist (packGo t h rest []).flatten rest := by
        simpa using ih []
      have := List.Sublist.append h1 h2
      simpa using this
    · have := ih (current ++ [s])
      simpa using this

theorem packGo_join_eq {α : Type} {t h : ℕ} (hth : t ≤ h) :
    ∀ (slots current : List α), current.length < t →
      (packGo t h slots current).flatten = current ++ slots := by
  intro slots
  induction slots with
  | nil =>
    intro current hc
    rw [packGo]
    split
    · rename_i hcur
      rw [List.isEmpty_iff.mp hcur]
      simp
    · simp
  | cons s rest ih =>
    intro current hc
    rw [packGo]
    split
    · rename_i hclose
      have hlen1 : current.length + 1 = t := by
        simp only [List.length_append, List.length_singleton] at hclose
        omega
      have htpos : 0 < t := by omega
      rw [List.take_of_length_le (by
        simp only [List.length_append, List.length_singleton]; omega)]
      simp only [List.flatten_cons]
      rw [ih [] (by simp only [List.length_nil]; omega)]
      simp
    · rename_i hclose
      have := ih (current ++ [s]) (by
        simp only [List.length_append, List.length_singleton] at hclose ⊢
        omega)
      simpa using this

theorem packGo_size_le {α : Type} {t h : ℕ} (hth : t ≤ h) :
    ∀ (slots current : List α), current.length < t →
      ∀ b ∈ packGo t h slots current, b.length ≤ h := by
  intro slots
  induction slots with
  | nil =>
    intro current hc b hb
    rw [packGo] at hb
    split at hb
    · simp at hb
    · rw [List.mem_singleton.mp hb]; omega
  | cons s rest ih =>
    intro current hc b hb
    rw [packGo] at hb
    split at hb
    · rcases List.mem_cons.mp hb with rfl | hb'
      · simp only [List.length_take]
        omega
      · exact ih [] (by simp only [List.length_nil]; omega) b hb'
    · rename_i hclose
      exact ih (current ++ [s]) (by
        simp only [List.length_append, List.length_singleton] at hclose ⊢
        omega) b hb

theorem packGo_dropLast_size {α : Type} {t h : ℕ} (hth : t ≤ h) :
    ∀ (slots current : List α), current.length < t →
      ∀ b ∈ (packGo t h slots current).dropLast, b.length = t := by
  intro slots
  induction slots with
  | nil =>
    intro current hc b hb
    rw [packGo] at hb
    split at hb <;> simp at hb
  | cons s rest ih =>
    intro current hc b hb
    rw [packGo] at hb
    split at hb
    · rename_i hclose
      have hlen1 : current.length + 1 = t := by
        simp only [List.length_append, List.length_singleton] at hclose
        omega
      rcases hxs : packGo t h rest [] with - | ⟨y, ys⟩
      · rw [hxs] at hb; simp at hb
      · rw [hxs, List.dropLast_cons₂] at hb
        rcases List.mem_cons.mp hb with rfl | hb'
        · rw [List.take_of_length_le (by
            simp only [List.length_append, List.length_singleton]; omega)]
          simp only [List.length_append, List.length_singleton]
          omega
        · have := ih [] (by simp only [List.length_nil]; omega) b
          rw [hxs] at this
          exact this hb'
    · rename_i hclose
      exact ih (current ++ [s]) (by
        simp only [List.length_append, List.length_singleton] at hclose ⊢
        omega) b hb

theorem packGo_join_length_lt {α : Type} {t h : ℕ} (hth : h < t) :
    ∀ (slots current : List α), current.length < t →
      (packGo t h slots current).flatten.length
          + ((current.length + slots.length) / t) * (t - h)
        = current.length + slots.length := by
  intro slots
  induction slots with
  | nil =>
    intro current hc
    rw [packGo, List.length_nil, Nat.add_zero, Nat.div_eq_of_lt hc,
      Nat.zero_mul, Nat.add_zero]
    split
    · rename_i hcur
      rw [List.isEmpty_iff.mp hcur]
      simp
    · simp
  | cons s rest ih =>
    intro current hc
    rw [packGo]
    split
    · rename_i hclose
      have hlen1 : current.length + 1 = t := by
        simp only [List.length_append, List.length_singleton] at hclose
        omega
      have htpos : 0 < t := by omega
      have hih := ih [] (by simp only [List.length_nil]; omega)
      simp only [List.length_nil, Nat.zero_add] at hih
      have hdiv : (current.length + (s :: rest).length) / t
          = rest.length / t + 1 := by
        have h1 : current.length + (s :: rest).length = rest.length + t := by
          simp only [List.length_cons]; omega
        rw [h1, Nat.add_div_right _ htpos]
      have htake : ((current ++ [s]).take h).length = h := by
        simp only [List.length_take, List.length_append, List.length_singleton]
        omega
      rw [List.flatten_cons, List.length_append, htake, hdiv, Nat.succ_mul]
      simp only [List.length_cons]
      omega
    · rename_i hclose
      have hih := ih (current ++ [s]) (by
        simp only [List.length_append, List.length_singleton] at hclose ⊢
        omega)
      simp only [List.length_append, List.length_singleton] at hih
      simp only [List.length_cons]
      have harith : current.length + (rest.length + 1)
          = current.length + 1 + rest.length := by omega
      rw [harith]
      exact hih

/-! ### Claim theorems: C5 and C10 -/

/-- C5: with target 20 and hard maximum 24, every emitted batch has at most
24 slots, every batch except possibly the last has at least 20, and the
concatenation of the batches is exactly the input sequence. -/
theorem C5_pack_spec :
    ∀ (α : Type) (slots : List α),
      (∀ b ∈ pack_slots_by_target slots 20 24, b.length ≤ 24) ∧
        (∀ b ∈ (pack_slots_by_target slots 20 24).dropLast, 20 ≤ b.length) ∧
        (pack_slots_by_target slots 20 24).flatten = slots := by
  intro α slots
  refine ⟨?_, ?_, ?_⟩
  · exact packGo_size_le (by omega) slots [] (by simp)
  · intro b hb
    have := packGo_dropLast_size (t := 20) (h := 24) (by omega) slots [] (by simp) b hb
    omega
  · simpa using packGo_join_eq (t := 20) (h := 24) (by omega) slots [] (by simp)

/-- Witness for C5: the 7-slot sequence `range 7` packs into one partial
batch of 7 ≤ 24 slots. -/
theorem C5_witness :
    ([0, 1, 2, 3, 4, 5, 6] : List ℕ).length ≤ 24 :=
  (C5_pack_spec ℕ [0, 1, 2, 3, 4, 5, 6]).1 [0, 1, 2, 3, 4, 5, 6] (by decide)

/-- C10: when the configured target exceeds the hard maximum, the packer
drops slots: the emitted batches form a subsequence of the input, and
exactly `target - hard_max` slots of each of the `⌊len/target⌋` closed
batches are missing from the concatenation, so they never reach the content
generator. -/
theorem C10_pack_truncation_loss :
    ∀ (α : Type) (slots : List α) (target hard_max : ℕ),
      hard_max < target →
      List.Sublist (pack_slots_by_target slots target hard_max).flatten slots ∧
        (pack_slots_by_target slots target hard_max).flatten.length
            + (slots.length / target) * (target - hard_max)
          = slots.length := by
  intro α slots t h hth
  constructor
  · simpa using packGo_join_sublist t h slots []
  · have := packGo_join_length_lt hth slots [] (by simp only [List.length_nil]; omega)
    simpa using this

/-- Witness for C10: with target 5 and hard max 3, seven slots lose exactly
`(7 / 5) * (5 - 3) = 2` slots. -/
theorem C10_witness :
    List.Sublist (pack_slots_by_target [0, 1, 2, 3, 4, 5, 6] 5 3).flatten
        [0, 1, 2, 3, 4, 5, 6] ∧
      (pack_slots_by_target ([0, 1, 2, 3, 4, 5, 6] : List ℕ) 5 3).flatten.length
          + (([0, 1, 2, 3, 4, 5, 6] : List ℕ).length / 5) * (5 - 3)
        = ([0, 1, 2, 3, 4, 5, 6] : List ℕ).length :=
  C10_pack_truncation_loss ℕ [0, 1, 2, 3, 4, 5, 6] 5 3 (by omega)

/-! ### Lemmas about the content generator -/

/-- A rating of `m` tenths with `0 ≤ m ≤ 50` lies in `[0, 5]` with one
decimal place. -/
theorem tenth_bounds {m : ℤ} (h0 : 0 ≤ m) (h5 : m ≤ 50) :
    0 ≤ ((m : ℚ)) / 10 ∧ ((m : ℚ)) / 10 ≤ 5 ∧ (((m : ℚ)) / 10 * 10).den = 1 := by
  refine ⟨by positivity, ?_, ?_⟩
  · rw [div_le_iff₀ (by norm_num : (0 : ℚ) < 10)]
    have : (m : ℚ) ≤ 50 := by exact_mod_cast h5
    linarith
  · rw [div_mul_cancel₀ _ (by norm_num : (10 : ℚ) ≠ 0)]
    exact Rat.den_intCast m

theorem fallback_rating_ok (ρ : ℕ → ℕ) (i : ℕ) (name desc : String) :
    0 ≤ (fallback_review_text ρ i name desc).1.2 ∧
      (fallback_review_text ρ i name desc).1.2 ≤ 5 ∧
      ((fallback_review_text ρ i name desc).1.2 * 10).den = 1 := by
  unfold fallback_review_text
  have h11 : ρ (i + 2) % 11 ≤ 10 := by
    have := Nat.mod_lt (ρ (i + 2)) (by norm_num : 0 < 11); omega
  have h16 : ρ (i + 2) % 16 ≤ 15 := by
    have := Nat.mod_lt (ρ (i + 2)) (by norm_num : 0 < 16); omega
  split
  · have := tenth_bounds (m := ((40 + ρ (i + 2) % 11 : ℕ) : ℤ))
      (by positivity) (by exact_mod_cast (by omega : (40 + ρ (i + 2) % 11 : ℕ) ≤ 50))
    simpa using this
  split
  · have := tenth_bounds (m := ((30 + ρ (i + 2) % 11 : ℕ) : ℤ))
      (by positivity) (by exact_mod_cast (by omega : (30 + ρ (i + 2) % 11 : ℕ) ≤ 50))
    simpa using this
  · have := tenth_bounds (m := ((20 + ρ (i + 2) % 16 : ℕ) : ℤ))
      (by positivity) (by exact_mod_cast (by omega : (20 + ρ (i + 2) % 16 : ℕ) ≤ 50))
    simpa using this

/-- The clamp-and-round at lines 229-230 always lands in `[0, 50]` tenths. -/
theorem clamp_round_bounds (rat : ℚ) :
    0 ≤ round (max 0 (min 5 rat) * 10) ∧ round (max 0 (min 5 rat) * 10) ≤ 50 := by
  have h0 : (0 : ℚ) ≤ max 0 (min 5 rat) := le_max_left _ _
  have h5 : max 0 (min 5 rat) ≤ 5 :=
    max_le (by norm_num) (min_le_left _ _)
  rw [round_eq]
  constructor
  · rw [Int.le_floor]
    push_cast
    nlinarith
  · have hlt : ⌊max 0 (min 5 rat) * 10 + 1 / 2⌋ < 51 := by
      rw [Int.floor_lt]
      push_cast
      nlinarith
    omega

theorem parse_results_spec (lines : List RespLine) :
    ∀ k g, parse_results lines k = some g →
      g.slot_id = k ∧ 0 ≤ g.rating ∧ g.rating ≤ 5 ∧ (g.rating * 10).den = 1 := by
  unfold parse_results
  suffices h : ∀ (acc : ℕ → Option GeneratedContent),
      (∀ k g, acc k = some g →
        g.slot_id = k ∧ 0 ≤ g.rating ∧ g.rating ≤ 5 ∧ (g.rating * 10).den = 1) →
      ∀ k g, (lines.foldl
          (fun acc line =>
            match line with
            | .garbage => acc
            | .record osid otxt orat =>
              match osid, otxt, orat with
              | some sid, some txt, some rat =>
                fun k =>
                  if k = sid then
                    some ⟨sid, txt.take 200,
                      ((round (max 0 (min 5 rat) * 10) : ℤ) : ℚ) / 10⟩
                  else acc k
              | _, _, _ => acc) acc) k = some g →
        g.slot_id = k ∧ 0 ≤ g.rating ∧ g.rating ≤ 5 ∧ (g.rating * 10).den = 1 by
    exact h (fun _ => none) (by intro k g hg; simp at hg)
  induction lines with
  | nil => intro acc hacc k g hg; exact hacc k g hg
  | cons line rest ih =>
    intro acc hacc k g hg
    rw [List.foldl_cons] at hg
    refine ih _ ?_ k g hg
    rcases line with - | ⟨osid, otxt, orat⟩
    · exact hacc
    · rcases osid with - | sid
      · exact hacc
      · rcases otxt with - | txt
        · exact hacc
        · rcases orat with - | rat
          · exact hacc
          · intro k' g' hg'
            simp only at hg'
            split at hg'
            · rename_i hk
              obtain rfl : (⟨sid, txt.take 200,
                  ((round (max 0 (min 5 rat) * 10) : ℤ) : ℚ) / 10⟩ :
                    GeneratedContent) = g' := by
                simpa using hg'
              obtain ⟨hb0, hb5⟩ := clamp_round_bounds rat
              obtain ⟨t0, t5, tden⟩ := tenth_bounds hb0 hb5
              exact ⟨hk.symm, t0, t5, tden⟩
            · exact hacc k' g' hg'

theorem fallback_all_spec (ρ : ℕ → ℕ) :
    ∀ (slots : List Slot) (i : ℕ),
      (fallback_all ρ i slots).1.map GeneratedContent.slot_id
          = slots.map Slot.slot_id ∧
        ∀ g ∈ (fallback_all ρ i slots).1,
          0 ≤ g.rating ∧ g.rating ≤ 5 ∧ (g.rating * 10).den = 1 := by
  intro slots
  induction slots with
  | nil => intro i; simp [fallback_all]
  | cons s rest ih =>
    intro i
    rw [fallback_all]
    constructor
    · simp only [List.map_cons]
      rw [(ih _).1]
    · intro g hg
      rcases List.mem_cons.mp hg with rfl | hg'
      · exact fallback_rating_ok ρ i s.name s.description
      · exact (ih _).2 g hg'

theorem gen_out_spec (ρ : ℕ → ℕ) (rmap : ℕ → Option GeneratedContent)
    (hmap : ∀ k g, rmap k = some g →
      g.slot_id = k ∧ 0 ≤ g.rating ∧ g.rating ≤ 5 ∧ (g.rating * 10).den = 1) :
    ∀ (slots : List Slot) (i : ℕ),
      (gen_out ρ rmap i slots).1.map GeneratedContent.slot_id
          = slots.map Slot.slot_id ∧
        ∀ g ∈ (gen_out ρ rmap i slots).1,
          0 ≤ g.rating ∧ g.rating ≤ 5 ∧ (g.rating * 10).den = 1 := by
  intro slots
  induction slots with
  | nil => intro i; simp [gen_out]
  | cons s rest ih =>
    intro i
    rw [gen_out]
    rcases hr : rmap s.slot_id with - | g0
    · constructor
      · simp only [List.map_cons]
        rw [(ih _).1]
      · intro g hg
        rcases List.mem_cons.mp hg with rfl | hg'
        · exact fallback_rating_ok ρ i s.name s.description
        · exact (ih _).2 g hg'
    · constructor
      · simp only [List.map_cons]
        rw [(ih _).1, (hmap _ _ hr).1]
      · intro g hg
        rcases List.mem_cons.mp hg with rfl | hg'
        · exact (hmap _ _ hr).2
        · exact (ih _).2 g hg'

/-! ### Claim theorem: C6 -/

/-- C6: in every mode — service unconfigured, call failure, or an arbitrary
(possibly partially valid, possibly out-of-range) response — the content
generator returns exactly one record per input slot, keyed by that slot's
id and in slot order, and every returned rating lies in `[0, 5]` with one
decimal place. -/
theorem C6_generate_one_per_slot_rating_clamped :
    ∀ (ρ : ℕ → ℕ) (i : ℕ) (use_openai : Bool) (slots : List Slot)
      (outcome : LLMOutcome),
      (generate_for_slots ρ i use_openai slots outcome).1.map
          GeneratedContent.slot_id = slots.map Slot.slot_id ∧
        ∀ g ∈ (generate_for_slots ρ i use_openai slots outcome).1,
          0 ≤ g.rating ∧ g.rating ≤ 5 ∧ (g.rating * 10).den = 1 := by
  intro ρ i use_openai slots outcome
  unfold generate_for_slots
  split
  · exact fallback_all_spec ρ slots i
  · rcases outcome with - | lines
    · exact fallback_all_spec ρ slots i
    · exact gen_out_spec ρ (parse_results lines) (parse_results_spec lines)
        slots i

/-- The first element of a nonempty list, as `getD 0`, is a member. -/
theorem getD_zero_mem {α : Type} (l : List α) (d : α) (h : 0 < l.length) :
    l.getD 0 d ∈ l := by
  cases l with
  | nil => simp at h
  | cons x xs => simp [List.getD]

/-- Witness for C6: the single record produced for a one-slot batch under a
failing external call has a rating in `[0, 5]` at one decimal place. -/
theorem C6_witness :
    0 ≤ ((generate_for_slots (fun _ => 0) 0 true
          [⟨1, 1, 1, "A", "B", "d"⟩] LLMOutcome.failure).1.getD 0
            ⟨0, "", 0⟩).rating ∧
      ((generate_for_slots (fun _ => 0) 0 true
          [⟨1, 1, 1, "A", "B", "d"⟩] LLMOutcome.failure).1.getD 0
            ⟨0, "", 0⟩).rating ≤ 5 ∧
      (((generate_for_slots (fun _ => 0) 0 true
          [⟨1, 1, 1, "A", "B", "d"⟩] LLMOutcome.failure).1.getD 0
            ⟨0, "", 0⟩).rating * 10).den = 1 :=
  (C6_generate_one_per_slot_rating_clamped (fun _ => 0) 0 true
      [⟨1, 1, 1, "A", "B", "d"⟩] LLMOutcome.failure).2 _
    (getD_zero_mem _ _ (by decide))

/-! ### Lemmas about the streaming writer -/

theorem number_rows_length {τ : Type} :
    ∀ (rows : List (Row τ)) (start : ℕ),
      (number_rows start rows).length = rows.length := by
  intro rows
  induction rows with
  | nil => intro start; rfl
  | cons r rs ih => intro start; simp [number_rows, ih]

theorem number_rows_map_fst {τ : Type} :
    ∀ (rows : List (Row τ)) (start : ℕ),
      (number_rows start rows).map Prod.fst = List.range' start rows.length := by
  intro rows
  induction rows with
  | nil => intro start; rfl
  | cons r rs ih =>
    intro start
    simp only [number_rows, List.map_cons, List.length_cons, ih,
      List.range'_succ]

theorem build_photos_ids {τ : Type} (ρ : ℕ → ℕ) :
    ∀ (batch : List (ℕ × Row τ)) (i : ℕ),
      ∀ p ∈ (build_review_photos ρ i batch).1,
        p.review_id ∈ batch.map Prod.fst := by
  intro batch
  induction batch with
  | nil => intro i p hp; simp [build_review_photos] at hp
  | cons x rest ih =>
    intro i p hp
    rcases x with ⟨rid, rv⟩
    rw [build_review_photos] at hp
    rcases List.mem_append.mp hp with hp' | hp'
    · obtain ⟨idx, -, rfl⟩ := List.mem_map.mp hp'
      simp
    · simp only [List.map_cons, List.mem_cons]
      exact Or.inr (ih _ p hp')

theorem flush_go_spec {τ : Type} (ρ : ℕ → ℕ) :
    ∀ (fuel : ℕ) (s : ReviewStreamer τ) (i : ℕ),
      s.buffer.length ≤ fuel → 0 < s.chunk_size →
      (flush_go ρ fuel s i).1.chunk_size = s.chunk_size ∧
        (flush_go ρ fuel s i).1.next_review_id = s.next_review_id ∧
        (flush_go ρ fuel s i).1.buffer.length < s.chunk_size ∧
        ∃ new, (flush_go ρ fuel s i).1.written = s.written ++ new ∧
          (∀ c ∈ new, c.reviews.length = s.chunk_size ∧
            ∀ p ∈ c.photos, p.review_id ∈ c.reviews.map Prod.fst) ∧
          (new.map Chunk.reviews).flatten ++ (flush_go ρ fuel s i).1.buffer
            = s.buffer ∧
          s.chunk_size * new.length + (flush_go ρ fuel s i).1.buffer.length
            = s.buffer.length := by
  intro fuel
  induction fuel with
  | zero =>
    intro s i hle hcs
    rw [flush_go]
    exact ⟨rfl, rfl, show s.buffer.length < s.chunk_size by omega, [],
      by simp, by simp, by simp, by simp⟩
  | succ fuel ih =>
    intro s i hle hcs
    rw [flush_go]
    split
    · rename_i hguard
      have hlen_take : (s.buffer.take s.chunk_size).length = s.chunk_size := by
        rw [List.length_take]; omega
      obtain ⟨h1, h2, h3, new', hw, hch, hfl, hcn⟩ :=
        ih ⟨s.chunk_size, s.buffer.drop s.chunk_size, s.next_review_id,
              s.written
                ++ [⟨(match (s.buffer.take s.chunk_size).getLast? with
                      | some p => p.1
                      | none => 0),
                    s.buffer.take s.chunk_size,
                    (build_review_photos ρ i (s.buffer.take s.chunk_size)).1⟩]⟩
          (build_review_photos ρ i (s.buffer.take s.chunk_size)).2
          (by simp only [List.length_drop]; omega) hcs
      dsimp only at h1 h2 h3 hw hch hfl hcn
      refine ⟨h1, h2, h3,
        ⟨(match (s.buffer.take s.chunk_size).getLast? with
          | some p => p.1
          | none => 0),
          s.buffer.take s.chunk_size,
          (build_review_photos ρ i (s.buffer.take s.chunk_size)).1⟩ :: new',
        ?_, ?_, ?_, ?_⟩
      · rw [hw, List.append_assoc, List.singleton_append]
      · intro c hc
        rcases List.mem_cons.mp hc with rfl | hc'
        · exact ⟨hlen_take, fun p hp => build_photos_ids ρ _ i p hp⟩
        · exact hch c hc'
      · rw [List.map_cons, List.flatten_cons, List.append_assoc, hfl,
          List.take_append_drop]
      · rw [List.length_drop] at hcn
        simp only [List.length_cons]
        rw [Nat.mul_succ]
        omega
    · rename_i hguard
      exact ⟨rfl, rfl, show s.buffer.length < s.chunk_size by omega, [],
        by simp, by simp, by simp, by simp⟩

theorem add_rows_spec {τ : Type} (ρ : ℕ → ℕ) (s : ReviewStreamer τ)
    (rows : List (Row τ)) (i : ℕ) (hcs : 0 < s.chunk_size) :
    (add_rows_and_maybe_flush ρ s rows i).1.chunk_size = s.chunk_size ∧
      (add_rows_and_maybe_flush ρ s rows i).1.next_review_id
        = s.next_review_id + rows.length ∧
      (add_rows_and_maybe_flush ρ s rows i).1.buffer.length < s.chunk_size ∧
      ∃ new, (add_rows_and_maybe_flush ρ s rows i).1.written
          = s.written ++ new ∧
        (∀ c ∈ new, c.reviews.length = s.chunk_size ∧
          ∀ p ∈ c.photos, p.review_id ∈ c.reviews.map Prod.fst) ∧
        (new.map Chunk.reviews).flatten
            ++ (add_rows_and_maybe_flush ρ s rows i).1.buffer
          = s.buffer ++ number_rows s.next_review_id rows ∧
        s.chunk_size * new.length
            + (add_rows_and_maybe_flush ρ s rows i).1.buffer.length
          = s.buffer.length + rows.length := by
  unfold add_rows_and_maybe_flush
  obtain ⟨h1, h2, h3, new, hw, hch, hfl, hcn⟩ :=
    flush_go_spec ρ (s.buffer.length + rows.length)
      ⟨s.chunk_size, s.buffer ++ number_rows s.next_review_id rows,
        s.next_review_id + rows.length, s.written⟩ i
      (by simp only [List.length_append, number_rows_length]; omega) hcs
  dsimp only at h1 h2 h3 hw hch hfl hcn
  rw [List.length_append, number_rows_length] at hcn
  exact ⟨h1, h2, h3, new, hw, hch, hfl, hcn⟩

theorem add_rows_allRows {τ : Type} (ρ : ℕ → ℕ) (s : ReviewStreamer τ)
    (rows : List (Row τ)) (i : ℕ) (hcs : 0 < s.chunk_size) :
    allRows (add_rows_and_maybe_flush ρ s rows i).1
      = allRows s ++ number_rows s.next_review_id rows := by
  obtain ⟨-, -, -, new, hw, -, hfl, -⟩ := add_rows_spec ρ s rows i hcs
  unfold allRows
  rw [hw, List.map_append, List.flatten_append, List.append_assoc, hfl,
    List.append_assoc]

theorem add_rows_inv {τ : Type} (ρ : ℕ → ℕ) (s : ReviewStreamer τ)
    (rows : List (Row τ)) (i : ℕ) (hcs : 0 < s.chunk_size)
    (hinv : StreamInv s) :
    StreamInv (add_rows_and_maybe_flush ρ s rows i).1 := by
  obtain ⟨hbuf, hwr, hids, hnx, hcnt⟩ := hinv
  obtain ⟨h1, h2, h3, new, hw, hch, hfl, hcn⟩ := add_rows_spec ρ s rows i hcs
  obtain ⟨m, hm⟩ : ∃ m, s.next_review_id = m + 1 :=
    ⟨s.next_review_id - 1, by omega⟩
  refine ⟨by rw [h1]; exact h3, ?_, ?_, by rw [h2]; omega, ?_⟩
  · intro c hc
    rw [hw] at hc
    rcases List.mem_append.mp hc with hc' | hc'
    · obtain ⟨hl, hph⟩ := hwr c hc'
      exact ⟨by rw [h1, hl], hph⟩
    · obtain ⟨hl, hph⟩ := hch c hc'
      exact ⟨by rw [h1, hl], hph⟩
  · rw [add_rows_allRows ρ s rows i hcs, List.map_append, hids,
      number_rows_map_fst, h2, hm]
    have e1 : m + 1 - 1 = m := by omega
    have e2 : m + 1 + rows.length - 1 = rows.length + m := by omega
    rw [e1, e2]
    have := List.range'_append_1 1 m rows.length
    rw [Nat.add_comm 1 m] at this
    exact this
  · rw [h1, h2, hw, List.length_append, Nat.mul_add]
    have hbl := hcn
    omega

theorem apply_calls_spec {τ : Type} (ρ : ℕ → ℕ) :
    ∀ (calls : List (List (Row τ))) (s : ReviewStreamer τ) (i : ℕ),
      0 < s.chunk_size → StreamInv s →
      StreamInv (apply_calls ρ (s, i) calls).1 ∧
        (apply_calls ρ (s, i) calls).1.chunk_size = s.chunk_size ∧
        (apply_calls ρ (s, i) calls).1.next_review_id
          = s.next_review_id + (calls.map List.length).sum ∧
        ∃ t, allRows (apply_calls ρ (s, i) calls).1 = allRows s ++ t := by
  intro calls
  induction calls with
  | nil =>
    intro s i hcs hinv
    exact ⟨hinv, rfl, by simp [apply_calls], [], by simp [apply_calls]⟩
  | cons rows rest ih =>
    intro s i hcs hinv
    rw [apply_calls]
    have hspec := add_rows_spec ρ s rows i hcs
    have hai := add_rows_inv ρ s rows i hcs hinv
    have hall := add_rows_allRows ρ s rows i hcs
    rcases hadd : add_rows_and_maybe_flush ρ s rows i with ⟨s', i'⟩
    rw [hadd] at hspec hai hall
    dsimp only at hspec hai hall ⊢
    obtain ⟨hcs', hnx', -, -⟩ := hspec
    obtain ⟨hinv2, hc2, hn2, t, ht⟩ := ih s' i' (by rw [hcs']; exact hcs) hai
    refine ⟨hinv2, by rw [hc2, hcs'], ?_, ?_⟩
    · rw [hn2, hnx', List.map_cons, List.sum_cons]
      omega
    · exact ⟨number_rows s.next_review_id rows ++ t,
        by rw [ht, hall, List.append_assoc]⟩

theorem apply_calls_append {τ : Type} (ρ : ℕ → ℕ) :
    ∀ (xs ys : List (List (Row τ))) (si : ReviewStreamer τ × ℕ),
      apply_calls ρ si (xs ++ ys) = apply_calls ρ (apply_calls ρ si xs) ys := by
  intro xs
  induction xs with
  | nil => intro ys si; rfl
  | cons x xs ih =>
    intro ys si
    rw [List.cons_append, apply_calls, apply_calls, ih]

theorem flush_remaining_allRows {τ : Type} (ρ : ℕ → ℕ)
    (s : ReviewStreamer τ) (i : ℕ) :
    allRows (flush_remaining ρ s i).1 = allRows s := by
  unfold flush_remaining
  split
  · rfl
  · rename_i hne
    unfold allRows
    dsimp only
    rw [List.map_append, List.flatten_append]
    simp

theorem streamInv_start {τ : Type} (cs : ℕ) (hcs : 0 < cs) :
    StreamInv (⟨cs, [], 1, []⟩ : ReviewStreamer τ) := by
  unfold StreamInv
  refine ⟨show ([] : List (ℕ × Row τ)).length < cs by simpa using hcs,
    ?_, ?_, le_refl 1,
    show cs * ([] : List (Chunk τ)).length + ([] : List (ℕ × Row τ)).length
      = 1 - 1 by simp⟩
  · intro c hc
    simp at hc
  · show (allRows (⟨cs, [], 1, []⟩ : ReviewStreamer τ)).map Prod.fst
      = List.range' 1 (1 - 1)
    simp [allRows, List.range']

theorem map_eq_pair {β : Type} (f : β → ℕ) (a : ℕ) :
    ∀ (l : List β), l.length = 2 → (∀ x ∈ l, f x = a) → l.map f = [a, a] := by
  intro l hlen hall
  rcases l with - | ⟨x, - | ⟨y, - | ⟨z, zs⟩⟩⟩
  · simp at hlen
  · simp at hlen
  · simp only [List.map_cons, List.map_nil]
    rw [hall x (by simp), hall y (by simp)]
  · simp at hlen

/-! ### Claim theorems: C7 and C8 -/

/-- C7: for any way of splitting 2500 rows into add calls with chunk size
1000, the writer emits exactly three review chunks of sizes 1000, 1000 and
500 in that order, and every review id referenced by a chunk's photo records
occurs among the review rows of that same chunk. -/
theorem C7_streamer_chunks_2500 :
    ∀ (ρ : ℕ → ℕ) (i : ℕ) (calls : List (List (Row String))),
      (calls.map List.length).sum = 2500 →
      ((flush_remaining ρ
            (apply_calls ρ ((⟨1000, [], 1, []⟩ : ReviewStreamer String), i)
              calls).1
            (apply_calls ρ ((⟨1000, [], 1, []⟩ : ReviewStreamer String), i)
              calls).2).1.written.map
          (fun c => c.reviews.length)) = [1000, 1000, 500] ∧
        ∀ c ∈ (flush_remaining ρ
            (apply_calls ρ ((⟨1000, [], 1, []⟩ : ReviewStreamer String), i)
              calls).1
            (apply_calls ρ ((⟨1000, [], 1, []⟩ : ReviewStreamer String), i)
              calls).2).1.written,
          ∀ p ∈ c.photos, p.review_id ∈ c.reviews.map Prod.fst := by
  intro ρ i calls hsum
  obtain ⟨hinv, hcs, hnx, -⟩ :=
    apply_calls_spec ρ calls (⟨1000, [], 1, []⟩ : ReviewStreamer String) i
      (by norm_num) (streamInv_start 1000 (by norm_num))
  obtain ⟨hbuf, hwr, -, -, hcnt⟩ := hinv
  have hcs1000 : (apply_calls ρ ((⟨1000, [], 1, []⟩ : ReviewStreamer String), i)
      calls).1.chunk_size = 1000 := hcs
  have hnx' : (apply_calls ρ ((⟨1000, [], 1, []⟩ : ReviewStreamer String), i)
      calls).1.next_review_id = 1 + (calls.map List.length).sum := hnx
  rw [hcs1000] at hbuf hcnt
  rw [hsum] at hnx'
  have hb500 : (apply_calls ρ ((⟨1000, [], 1, []⟩ : ReviewStreamer String), i)
      calls).1.buffer.length = 500 ∧
      (apply_calls ρ ((⟨1000, [], 1, []⟩ : ReviewStreamer String), i)
        calls).1.written.length = 2 := by
    constructor <;> omega
  have hmap : (apply_calls ρ ((⟨1000, [], 1, []⟩ : ReviewStreamer String), i)
      calls).1.written.map (fun c => c.reviews.length) = [1000, 1000] :=
    map_eq_pair _ 1000 _ hb500.2 (fun c hc => by rw [(hwr c hc).1, hcs])
  have hne : ¬ ((apply_calls ρ ((⟨1000, [], 1, []⟩ : ReviewStreamer String), i)
      calls).1.buffer.isEmpty = true) := by
    rw [List.isEmpty_iff]
    intro h
    rw [h] at hb500
    simp at hb500
  constructor
  · rw [flush_remaining, if_neg hne]
    dsimp only
    rw [List.map_append, hmap]
    simp [hb500.1]
  · intro c hc
    rw [flush_remaining, if_neg hne] at hc
    dsimp only at hc
    rcases List.mem_append.mp hc with hc' | hc'
    · exact (hwr c hc').2
    · rw [List.mem_singleton.mp hc']
      exact fun p hp => build_photos_ids ρ _ _ p hp

/-- Witness for C7: a single add call of 2500 identical rows. -/
theorem C7_witness :
    ((flush_remaining (fun _ => 0)
          (apply_calls (fun _ => 0)
            ((⟨1000, [], 1, []⟩ : ReviewStreamer String), 0)
            [List.replicate 2500 ⟨1, 1, 4, "t", "2024-01-01", false, "a", "a"⟩]).1
          (apply_calls (fun _ => 0)
            ((⟨1000, [], 1, []⟩ : ReviewStreamer String), 0)
            [List.replicate 2500 ⟨1, 1, 4, "t", "2024-01-01", false, "a", "a"⟩]).2).1.written.map
        (fun c => c.reviews.length)) = [1000, 1000, 500] :=
  (C7_streamer_chunks_2500 (fun _ => 0) 0
      [List.replicate 2500 ⟨1, 1, 4, "t", "2024-01-01", false, "a", "a"⟩]
      (by simp)).1

/-- C8: across any sequence of writer operations, review ids are assigned in
strictly increasing arrival order and form the dense sequence 1, 2, 3, ...
with no gaps; rows already accepted are never renumbered by later add calls
or by the final flush — later operations only append. -/
theorem C8_review_ids_dense_stable :
    ∀ (ρ : ℕ → ℕ) (cs i : ℕ) (calls more : List (List (Row String))),
      0 < cs →
      ((allRows (apply_calls ρ ((⟨cs, [], 1, []⟩ : ReviewStreamer String), i)
              calls).1).map Prod.fst
          = List.range' 1 ((calls.map List.length).sum)) ∧
        (∃ t, allRows (apply_calls ρ
              ((⟨cs, [], 1, []⟩ : ReviewStreamer String), i)
              (calls ++ more)).1
            = allRows (apply_calls ρ
                ((⟨cs, [], 1, []⟩ : ReviewStreamer String), i) calls).1 ++ t) ∧
        allRows (flush_remaining ρ
              (apply_calls ρ ((⟨cs, [], 1, []⟩ : ReviewStreamer String), i)
                calls).1
              (apply_calls ρ ((⟨cs, [], 1, []⟩ : ReviewStreamer String), i)
                calls).2).1
          = allRows (apply_calls ρ
              ((⟨cs, [], 1, []⟩ : ReviewStreamer String), i) calls).1 := by
  intro ρ cs i calls more hcs
  obtain ⟨hinv, hcs', hnx, -⟩ :=
    apply_calls_spec ρ calls (⟨cs, [], 1, []⟩ : ReviewStreamer String) i
      (by simpa using hcs) (streamInv_start cs hcs)
  obtain ⟨-, -, hids, -, -⟩ := hinv
  refine ⟨?_, ?_, ?_⟩
  · rw [hids, hnx]
    dsimp only
    have : 1 + (calls.map List.length).sum - 1 = (calls.map List.length).sum := by
      omega
    rw [this]
  · rw [apply_calls_append]
    rcases hfin : apply_calls ρ ((⟨cs, [], 1, []⟩ : ReviewStreamer String), i)
        calls with ⟨s', i'⟩
    have hinv' := (apply_calls_spec ρ calls
      (⟨cs, [], 1, []⟩ : ReviewStreamer String) i (by simpa using hcs)
      (streamInv_start cs hcs))
    rw [hfin] at hinv'
    dsimp only at hinv' ⊢
    obtain ⟨hi2, hc2, -, -⟩ := hinv'
    obtain ⟨-, -, -, t, ht⟩ := apply_calls_spec ρ more s' i'
      (by rw [hc2]; simpa using hcs) hi2
    exact ⟨t, ht⟩
  · exact flush_remaining_allRows ρ _ _

/-- Witness for C8: the empty operation sequence with chunk size 1000. -/
theorem C8_witness :
    ((allRows (apply_calls (fun _ => 0)
            ((⟨1000, [], 1, []⟩ : ReviewStreamer String), 0)
            ([] : List (List (Row String)))).1).map Prod.fst
        = List.range' 1
            ((([] : List (List (Row String))).map List.length).sum)) ∧
      (∃ t, allRows (apply_calls (fun _ => 0)
            ((⟨1000, [], 1, []⟩ : ReviewStreamer String), 0)
            (([] : List (List (Row String))) ++ [])).1
          = allRows (apply_calls (fun _ => 0)
              ((⟨1000, [], 1, []⟩ : ReviewStreamer String), 0)
              ([] : List (List (Row String)))).1 ++ t) ∧
      allRows (flush_remaining (fun _ => 0)
            (apply_calls (fun _ => 0)
              ((⟨1000, [], 1, []⟩ : ReviewStreamer String), 0)
              ([] : List (List (Row String)))).1
            (apply_calls (fun _ => 0)
              ((⟨1000, [], 1, []⟩ : ReviewStreamer String), 0)
              ([] : List (List (Row String)))).2).1
        = allRows (apply_calls (fun _ => 0)
            ((⟨1000, [], 1, []⟩ : ReviewStreamer String), 0)
            ([] : List (List (Row String)))).1 :=
  C8_review_ids_dense_stable (fun _ => 0) 1000 0 [] [] (by norm_num)

/-! ### Timestamp naturality of the pipeline -/

theorem number_rows_map_ts {τ σ : Type} (f : τ → σ) :
    ∀ (rows : List (Row τ)) (start : ℕ),
      number_rows start (rows.map (Row.map_ts f))
        = (number_rows start rows).map (fun p => (p.1, p.2.map_ts f)) := by
  intro rows
  induction rows with
  | nil => intro start; rfl
  | cons r rs ih =>
    intro start
    simp only [List.map_cons, number_rows, ih]

theorem build_photos_map_ts_snd {τ σ : Type} (f : τ → σ) (ρ : ℕ → ℕ) :
    ∀ (batch : List (ℕ × Row τ)) (i : ℕ),
      (build_review_photos ρ i
          (batch.map (fun p => (p.1, p.2.map_ts f)))).2
        = (build_review_photos ρ i batch).2 := by
  intro batch
  induction batch with
  | nil => intro i; rfl
  | cons x rest ih =>
    intro i
    rcases x with ⟨rid, rv⟩
    simp only [List.map_cons, build_review_photos, ih]

theorem build_photos_map_ts_fst {τ σ : Type} (f : τ → σ) (ρ : ℕ → ℕ) :
    ∀ (batch : List (ℕ × Row τ)) (i : ℕ),
      (build_review_photos ρ i
          (batch.map (fun p => (p.1, p.2.map_ts f)))).1
        = (build_review_photos ρ i batch).1.map (Photo.map_ts f) := by
  intro batch
  induction batch with
  | nil => intro i; rfl
  | cons x rest ih =>
    intro i
    rcases x with ⟨rid, rv⟩
    simp only [List.map_cons, build_review_photos]
    rw [ih, List.map_append, List.map_map]
    congr 1

theorem flush_go_map_ts {τ σ : Type} (f : τ → σ) (ρ : ℕ → ℕ) :
    ∀ (fuel : ℕ) (s : ReviewStreamer τ) (i : ℕ),
      flush_go ρ fuel (s.map_ts f) i
        = ((flush_go ρ fuel s i).1.map_ts f, (flush_go ρ fuel s i).2) := by
  intro fuel
  induction fuel with
  | zero => intro s i; rfl
  | succ fuel ih =>
    intro s i
    rcases s with ⟨cs, buf, nx, wr⟩
    rw [flush_go, flush_go]
    simp only [ReviewStreamer.map_ts, List.length_map]
    by_cases hg : cs ≤ buf.length
    · rw [if_pos hg, if_pos hg]
      have hstate :
          (⟨cs, (buf.map (fun p => (p.1, p.2.map_ts f))).drop cs, nx,
              wr.map (Chunk.map_ts f)
                ++ [⟨(match ((buf.map (fun p => (p.1, p.2.map_ts f))).take
                        cs).getLast? with
                      | some p => p.1
                      | none => 0),
                    (buf.map (fun p => (p.1, p.2.map_ts f))).take cs,
                    (build_review_photos ρ i
                      ((buf.map (fun p => (p.1, p.2.map_ts f))).take
                        cs)).1⟩]⟩ : ReviewStreamer σ)
            = (ReviewStreamer.map_ts f
                ⟨cs, buf.drop cs, nx,
                  wr ++ [⟨(match (buf.take cs).getLast? with
                          | some p => p.1
                          | none => 0),
                        buf.take cs,
                        (build_review_photos ρ i (buf.take cs)).1⟩]⟩) := by
        rcases hlast : (buf.take cs).getLast? with - | p
        · simp only [ReviewStreamer.map_ts, Chunk.map_ts, List.map_append,
            ← List.map_take, ← List.map_drop, List.getLast?_map, hlast,
            build_photos_map_ts_fst, List.map_cons, List.map_nil,
            Option.map_none']
        · simp only [ReviewStreamer.map_ts, Chunk.map_ts, List.map_append,
            ← List.map_take, ← List.map_drop, List.getLast?_map, hlast,
            build_photos_map_ts_fst, List.map_cons, List.map_nil,
            Option.map_some']
      have hidx :
          (build_review_photos ρ i
              ((buf.map (fun p => (p.1, p.2.map_ts f))).take cs)).2
            = (build_review_photos ρ i (buf.take cs)).2 := by
        rw [← List.map_take, build_photos_map_ts_snd]
      rw [hstate, hidx, ih]
      rfl
    · rw [if_neg hg, if_neg hg]

theorem add_rows_map_ts {τ σ : Type} (f : τ → σ) (ρ : ℕ → ℕ)
    (s : ReviewStreamer τ) (rows : List (Row τ)) (i : ℕ) :
    add_rows_and_maybe_flush ρ (s.map_ts f) (rows.map (Row.map_ts f)) i
      = ((add_rows_and_maybe_flush ρ s rows i).1.map_ts f,
        (add_rows_and_maybe_flush ρ s rows i).2) := by
  rcases s with ⟨cs, buf, nx, wr⟩
  unfold add_rows_and_maybe_flush
  simp only [ReviewStreamer.map_ts, List.length_map]
  have hstate :
      (⟨cs, buf.map (fun p => (p.1, p.2.map_ts f))
            ++ number_rows nx (rows.map (Row.map_ts f)),
          nx + rows.length,
          wr.map (Chunk.map_ts f)⟩ : ReviewStreamer σ)
        = (ReviewStreamer.map_ts f
            ⟨cs, buf ++ number_rows nx rows, nx + rows.length, wr⟩) := by
    simp only [ReviewStreamer.map_ts, List.map_append, number_rows_map_ts]
  rw [hstate]
  exact flush_go_map_ts f ρ _ _ _

theorem apply_calls_map_ts {τ σ : Type} (f : τ → σ) (ρ : ℕ → ℕ) :
    ∀ (calls : List (List (Row τ))) (s : ReviewStreamer τ) (i : ℕ),
      apply_calls ρ (s.map_ts f, i) (calls.map (List.map (Row.map_ts f)))
        = ((apply_calls ρ (s, i) calls).1.map_ts f,
          (apply_calls ρ (s, i) calls).2) := by
  intro calls
  induction calls with
  | nil => intro s i; rfl
  | cons rows rest ih =>
    intro s i
    simp only [List.map_cons, apply_calls]
    rw [add_rows_map_ts]
    rcases hadd : add_rows_and_maybe_flush ρ s rows i with ⟨s', i'⟩
    exact ih s' i'

theorem flush_remaining_map_ts {τ σ : Type} (f : τ → σ) (ρ : ℕ → ℕ)
    (s : ReviewStreamer τ) (i : ℕ) :
    flush_remaining ρ (s.map_ts f) i
      = ((flush_remaining ρ s i).1.map_ts f, (flush_remaining ρ s i).2) := by
  rcases s with ⟨cs, buf, nx, wr⟩
  unfold flush_remaining
  simp only [ReviewStreamer.map_ts]
  by_cases hb : buf.isEmpty
  · rw [if_pos (by simpa using hb), if_pos hb]
  · rw [if_neg (by simpa using hb), if_neg hb]
    rcases hlast : buf.getLast? with - | p
    · simp only [Chunk.map_ts, ReviewStreamer.map_ts, List.map_append,
        List.getLast?_map, hlast, build_photos_map_ts_fst,
        build_photos_map_ts_snd, List.map_cons, List.map_nil,
        Option.map_none', Prod.mk.injEq]
    · simp only [Chunk.map_ts, ReviewStreamer.map_ts, List.map_append,
        List.getLast?_map, hlast, build_photos_map_ts_fst,
        build_photos_map_ts_snd, List.map_cons, List.map_nil,
        Option.map_some', Prod.mk.injEq]

theorem run_prompt_rows_map_ts {τ σ : Type} (f : τ → σ) (ρ : ℕ → ℕ)
    (rmap : ℕ → Option GeneratedContent) (nowts : τ) :
    ∀ (slots : List Slot) (i : ℕ),
      run_prompt_rows ρ rmap (f nowts) i slots
        = ((run_prompt_rows ρ rmap nowts i slots).1.map (Row.map_ts f),
          (run_prompt_rows ρ rmap nowts i slots).2) := by
  intro slots
  induction slots with
  | nil => intro i; rfl
  | cons s rest ih =>
    intro i
    rw [run_prompt_rows, run_prompt_rows]
    rcases rmap s.slot_id with - | rr
    · simp only [ih, List.map_cons, Row.map_ts]
    · simp only [ih, List.map_cons, Row.map_ts]

theorem run_prompt_map_ts {τ σ : Type} (f : τ → σ) (ρ : ℕ → ℕ) (i : ℕ)
    (use_openai : Bool) (outcome : LLMOutcome) (slots : List Slot)
    (nowts : τ) :
    run_prompt ρ i use_openai outcome slots (f nowts)
      = ((run_prompt ρ i use_openai outcome slots nowts).1.map (Row.map_ts f),
        (run_prompt ρ i use_openai outcome slots nowts).2) := by
  unfold run_prompt
  exact run_prompt_rows_map_ts f ρ _ nowts slots _

theorem gen_rows_for_group_map_ts {τ σ : Type} (f : τ → σ) (ρ : ℕ → ℕ)
    (now : ℕ → τ) :
    ∀ (g : List (List Slot)) (i b : ℕ),
      gen_rows_for_group ρ (fun b => f (now b)) i b g
        = ((gen_rows_for_group ρ now i b g).1.map (List.map (Row.map_ts f)),
          (gen_rows_for_group ρ now i b g).2) := by
  intro g
  induction g with
  | nil => intro i b; rfl
  | cons batch rest ih =>
    intro i b
    rw [gen_rows_for_group, gen_rows_for_group]
    rw [run_prompt_map_ts]
    simp only [List.map_cons, ih]

theorem run_groups_map_ts {τ σ : Type} (f : τ → σ) (ρ : ℕ → ℕ)
    (now : ℕ → τ) :
    ∀ (gs : List (List (List Slot))) (s : ReviewStreamer τ) (i b : ℕ),
      run_groups ρ (fun b => f (now b)) gs (s.map_ts f, i) b
        = ((run_groups ρ now gs (s, i) b).1.map_ts f,
          (run_groups ρ now gs (s, i) b).2) := by
  intro gs
  induction gs with
  | nil => intro s i b; rfl
  | cons g rest ih =>
    intro s i b
    rw [run_groups, run_groups]
    simp only [gen_rows_for_group_map_ts]
    rw [apply_calls_map_ts]
    rcases happ : apply_calls ρ (s, (gen_rows_for_group ρ now i b g).2.1)
        (gen_rows_for_group ρ now i b g).1 with ⟨s', i'⟩
    exact ih s' i' _

theorem run_pipeline_map_ts {τ σ : Type} (f : τ → σ) (ρ : ℕ → ℕ)
    (slots : List Slot) (now : ℕ → τ) :
    run_pipeline ρ slots (fun b => f (now b))
      = (run_pipeline ρ slots now).map (Chunk.map_ts f) := by
  unfold run_pipeline
  have hinit : ((⟨CHUNK_SIZE, [], 1, []⟩ : ReviewStreamer σ), 0)
      = ((ReviewStreamer.map_ts f
          (⟨CHUNK_SIZE, [], 1, []⟩ : ReviewStreamer τ)), 0) := rfl
  rw [hinit, run_groups_map_ts, flush_remaining_map_ts]
  rfl

/-! ### Claim theorems: C1 -/

/-- C1 (counterexample): chunk contents are not identical across two runs
with the same seed and inputs — `run_prompt` stamps every row with
`datetime.now()`, so two runs whose wall clocks differ by one second write
different chunk bytes even with identical draws and slots. -/
theorem C1_counterexample :
    ¬ ∀ (ρ : ℕ → ℕ) (slots : List Slot) (now now' : ℕ → String),
        run_pipeline ρ slots now = run_pipeline ρ slots now' := by
  intro h
  have hc := h (fun _ => 0) [⟨1, 1, 1, "A", "B", "d"⟩]
    (fun _ => "2024-01-01 00:00:00") (fun _ => "2024-01-01 00:00:01")
  have hts := congrArg
    (fun l : List (Chunk String) =>
      ((l.getD 0 ⟨0, [], []⟩).reviews.getD 0
        (0, ⟨0, 0, 0, "", "", false, "", ""⟩)).2.created_at) hc
  have h1 : ((((run_pipeline (fun _ => 0) [⟨1, 1, 1, "A", "B", "d"⟩]
        (fun _ => "2024-01-01 00:00:00")).getD 0 ⟨0, [], []⟩).reviews.getD 0
        (0, ⟨0, 0, 0, "", "", false, "", ""⟩)).2.created_at)
      = "2024-01-01 00:00:00" := by decide
  have h2 : ((((run_pipeline (fun _ => 0) [⟨1, 1, 1, "A", "B", "d"⟩]
        (fun _ => "2024-01-01 00:00:01")).getD 0 ⟨0, [], []⟩).reviews.getD 0
        (0, ⟨0, 0, 0, "", "", false, "", ""⟩)).2.created_at)
      = "2024-01-01 00:00:01" := by decide
  simp only at hts
  rw [h1, h2] at hts
  exact absurd hts (by decide)

/-- C1 (amended): with the same seed, the same inputs and no external
service, two runs produce chunk files that are identical except for the
`created_at`/`updated_at` wall-clock timestamp fields of the review rows and
their photo records: erasing the timestamps from both runs' chunks yields
equal contents, whatever clock strings the two runs read.  Full
byte-identity holds only when the two runs also read identical clock
strings. -/
theorem C1_pipeline_deterministic_except_timestamps :
    ∀ (ρ : ℕ → ℕ) (slots : List Slot) (now now' : ℕ → String),
      (run_pipeline ρ slots now).map (Chunk.map_ts (fun _ => ()))
        = (run_pipeline ρ slots now').map (Chunk.map_ts (fun _ => ())) := by
  intro ρ slots now now'
  rw [← run_pipeline_map_ts (fun _ => ()) ρ slots now,
    ← run_pipeline_map_ts (fun _ => ()) ρ slots now']

end SynthReviews
